import Mathlib

/-!
# Verification of the money-muling detection engine

A shallow embedding of `src/detector.py` (graph construction, cycle /
smurfing / shell-chain detection, score combination, ring-id assignment,
and the result-document assembly of `detect_all_patterns`), together with
theorems settling the specification claims.

Modelling conventions:
* account ids and transaction ids are `String`s, amounts and risk scores
  are `ℚ` (the Python floats), timestamps are abstract instants `ℤ`
  measured in hours (the smurfing window `timedelta(hours=72)` becomes the
  integer `72`);
* the networkx `DiGraph` is modelled by its node list (insertion order)
  and an edge list holding at most one edge per ordered `(src, dst)` pair,
  ordered by first insertion of the pair, with attributes overwritten on
  re-insertion — exactly `nx.DiGraph.add_edge` semantics;
* Python `dict`s keyed by account id are modelled as insertion-ordered
  association lists; Python `set`s (whose iteration order is
  hash-dependent and unspecified) are modelled as first-occurrence
  deduplicated lists, and no theorem below depends on that order choice.
-/

/-! ## List utilities -/

/-- Deduplicate keeping the first occurrence of each element, preserving
order (the semantics of Python `dict.fromkeys`). -/
def dedupFirst : List String → List String
  | [] => []
  | a :: l => a :: (dedupFirst l).filter (fun b => !(b == a))

theorem mem_dedupFirst {x : String} : ∀ {l : List String}, x ∈ dedupFirst l ↔ x ∈ l
  | [] => by simp [dedupFirst]
  | a :: l => by
    by_cases hxa : x = a
    · subst hxa; simp [dedupFirst]
    · simp [dedupFirst, hxa, List.mem_filter, mem_dedupFirst (l := l)]

/-- Insert into a list sorted by the strict "comes before" relation `lt`,
keeping `x` after exactly the strictly smaller prefix — combined with
`sortAsc` this is a stable sort, the semantics of Python `sorted`. -/
def insertAsc (lt : α → α → Bool) (x : α) : List α → List α
  | [] => [x]
  | y :: ys => if lt y x then y :: insertAsc lt x ys else x :: y :: ys

/-- Stable insertion sort by the strict relation `lt`; models Python
`sorted` (elements that compare equal keep their input order). -/
def sortAsc (lt : α → α → Bool) : List α → List α
  | [] => []
  | x :: xs => insertAsc lt x (sortAsc lt xs)

theorem perm_insertAsc (lt : α → α → Bool) (x : α) :
    ∀ l : List α, List.Perm (insertAsc lt x l) (x :: l)
  | [] => List.Perm.refl _
  | y :: ys => by
    by_cases h : lt y x
    · simpa [insertAsc, h] using
        ((perm_insertAsc lt x ys).cons y).trans (List.Perm.swap x y ys)
    · simp [insertAsc, h]

theorem perm_sortAsc (lt : α → α → Bool) : ∀ l : List α, List.Perm (sortAsc lt l) l
  | [] => List.Perm.refl _
  | x :: xs =>
    ((perm_insertAsc lt x (sortAsc lt xs)).trans ((perm_sortAsc lt xs).cons x))

/-- Sortedness of insertion sort: every element is non-strictly before the
ones after it, for an asymmetric, negatively transitive `lt`. -/
theorem pairwise_insertAsc (lt : α → α → Bool)
    (hasym : ∀ a b, lt a b = true → lt b a = false)
    (hntrans : ∀ a b c, lt a b = false → lt b c = false → lt a c = false)
    (x : α) : ∀ {l : List α}, l.Pairwise (fun a b => lt b a = false) →
    (insertAsc lt x l).Pairwise (fun a b => lt b a = false)
  | [], _ => by simp [insertAsc]
  | y :: ys, h => by
    rcases List.pairwise_cons.1 h with ⟨hy, hys⟩
    by_cases hxy : lt y x
    · simp only [insertAsc, hxy, if_pos]
      refine List.pairwise_cons.2 ⟨?_, pairwise_insertAsc lt hasym hntrans x hys⟩
      intro b hb
      have hb' := (List.Perm.mem_iff (perm_insertAsc lt x ys)).1 hb
      rcases List.mem_cons.1 hb' with hb' | hb'
      · rw [hb']; exact hasym y x hxy
      · exact hy b hb'
    · simp only [insertAsc, hxy, if_neg, Bool.not_eq_true]
      have hyx : lt y x = false := by
        cases hc : lt y x
        · rfl
        · exact absurd hc hxy
      refine List.pairwise_cons.2 ⟨?_, h⟩
      intro b hb
      rcases List.mem_cons.1 hb with hb | hb
      · subst hb; exact hyx
      · exact hntrans b y x (hy b hb) hyx

theorem pairwise_sortAsc (lt : α → α → Bool)
    (hasym : ∀ a b, lt a b = true → lt b a = false)
    (hntrans : ∀ a b c, lt a b = false → lt b c = false → lt a c = false) :
    ∀ l : List α, (sortAsc lt l).Pairwise (fun a b => lt b a = false)
  | [] => by simp [sortAsc]
  | x :: xs => pairwise_insertAsc lt hasym hntrans x (pairwise_sortAsc lt hasym hntrans xs)

/-! ## Data model (`src/detector.py` dataclasses and input records) -/

/-- One input transaction record (one row of the input DataFrame, after the
column coercions performed by `build_graph`: ids via `str`, amount via
`float`, timestamp via `_parse_timestamp`). -/
structure Txn where
  transaction_id : String
  sender_id : String
  receiver_id : String
  amount : ℚ
  timestamp : ℤ
deriving DecidableEq, Repr

/-- A directed edge with its attribute dict, as stored by
`g.add_edge(sender, receiver, transaction_id=…, amount=…, timestamp=…)`. -/
structure Edge where
  src : String
  dst : String
  transaction_id : String
  amount : ℚ
  timestamp : ℤ
deriving DecidableEq, Repr

/-- The `AccountScore` dataclass. -/
structure AccountScore where
  account_id : String
  risk_score : ℚ
  reasons : List String
deriving DecidableEq, Repr

/-- The pattern-specific `details` dict of a ring. -/
inductive Details where
  | cycle (length : ℕ)
  | fanIn (receiver : String) (cluster_size : ℕ)
  | fanOut (sender : String) (cluster_size : ℕ)
  | shell (path : List String) (intermediates : List String)
deriving DecidableEq, Repr

/-- The `FraudRing` dataclass. -/
structure FraudRing where
  ring_id : String
  members : List String
  pattern_type : String
  risk_score : ℚ
  details : Details
deriving DecidableEq, Repr

/-! ## The transaction graph (`networkx.DiGraph`)

`nodes` records node insertion order.  `adjl` holds one `Edge` per ordered
`(src, dst)` pair, in first-insertion order of the pair; re-adding an edge
for an existing pair overwrites its attributes in place (dict semantics of
`DiGraph.add_edge`). -/

structure DiGraph where
  nodes : List String
  adjl : List Edge
deriving DecidableEq, Repr

def DiGraph.emptyG : DiGraph := ⟨[], []⟩

/-- `g.add_node(n)`: append if absent. -/
def addNode (g : DiGraph) (n : String) : DiGraph :=
  if n ∈ g.nodes then g else ⟨g.nodes ++ [n], g.adjl⟩

def hasEdge (g : DiGraph) (s r : String) : Bool :=
  g.adjl.any fun e => e.src == s && e.dst == r

/-- `g.add_edge(e.src, e.dst, **attrs)`: ensure both endpoints are nodes;
overwrite the attributes if the ordered pair is present, else append. -/
def addEdge (g : DiGraph) (e : Edge) : DiGraph :=
  let g1 := addNode (addNode g e.src) e.dst
  if hasEdge g1 e.src e.dst then
    ⟨g1.nodes, g1.adjl.map fun e0 => if e0.src == e.src && e0.dst == e.dst then e else e0⟩
  else
    ⟨g1.nodes, g1.adjl ++ [e]⟩

/-- `g.in_edges(n, data=True)`: edges into `n`, in predecessor insertion
order (one per distinct predecessor, by `DiGraph` semantics). -/
def inEdges (g : DiGraph) (n : String) : List Edge :=
  g.adjl.filter fun e => e.dst == n

/-- `g.out_edges(n, data=True)`: edges out of `n`, in successor insertion
order. -/
def outEdges (g : DiGraph) (n : String) : List Edge :=
  g.adjl.filter fun e => e.src == n

def inDegree (g : DiGraph) (n : String) : ℕ := (inEdges g n).length

def outDegree (g : DiGraph) (n : String) : ℕ := (outEdges g n).length

/-- `g.edges(data=True)`: for each node `u` in node order, the edges out of
`u` in successor order. -/
def edgesData (g : DiGraph) : List Edge :=
  (g.nodes.map fun u => outEdges g u).flatten

/-- Attribute lookup for the edge on an ordered pair, if present. -/
def findEdge (g : DiGraph) (s r : String) : Option Edge :=
  g.adjl.find? fun e => e.src == s && e.dst == r

/-- The edge a record contributes. -/
def txEdge (t : Txn) : Edge :=
  ⟨t.sender_id, t.receiver_id, t.transaction_id, t.amount, t.timestamp⟩

/-- `build_graph`: fold the records into the graph.  `add_node` for both
endpoints, then `add_edge` (which overwrites the attributes of a previous
edge on the same ordered pair — `nx.DiGraph` keeps no parallel edges). -/
def build_graph (rows : List Txn) : DiGraph :=
  rows.foldl (fun g t => addEdge (addNode (addNode g t.sender_id) t.receiver_id) (txEdge t))
    DiGraph.emptyG

/-! ## Cycle detection (`detect_cycles`)

`nx.simple_cycles` is library code; `simple_cycles` below models its
contract: it enumerates every simple directed cycle of the graph exactly
once (self-loops as singleton lists), each cycle reported as the node
sequence of one of its rotations.  Our enumerator fixes the rotation that
starts at the cycle's smallest-index node and searches depth-first; the
emission order and rotation are unspecified in networkx and every theorem
below that involves `simple_cycles` is independent of that choice or
quantifies over the produced list. -/

def nodeIdx (g : DiGraph) (n : String) : ℕ := g.nodes.indexOf n

/-- Depth-first search for closed walks back to `s` through nodes of index
`≥ nodeIdx g s` only, visiting each node at most once.  `fuel` bounds the
path length; `g.nodes.length + 1` is enough for simple paths. -/
def cyclesFromAux (g : DiGraph) (s : String) :
    ℕ → String → List String → List (List String)
  | 0, _, _ => []
  | fuel + 1, current, path =>
    (outEdges g current).flatMap fun e =>
      if e.dst == s then [path]
      else if e.dst ∈ path || nodeIdx g e.dst < nodeIdx g s then []
      else cyclesFromAux g s fuel e.dst (path ++ [e.dst])

/-- Model of `nx.simple_cycles g`. -/
def simple_cycles (g : DiGraph) : List (List String) :=
  g.nodes.flatMap fun s => cyclesFromAux g s (g.nodes.length + 1) s [s]

/-- The list `rotated_variants` of `detect_cycles`: all rotations of a
cycle's node sequence. -/
def rotationsOf (c : List String) : List (List String) :=
  (List.range c.length).map fun i => c.rotate i

/-- Python `min` over a list (lexicographic order on tuples of strings);
`min([])` never occurs on the call sites below. -/
def pyMin : List (List String) → List String
  | [] => []
  | x :: xs => xs.foldl min x

/-- `key = min(rotated_variants)`: the canonical rotation used as the
deduplication key. -/
def cycleKey (c : List String) : List String := pyMin (rotationsOf c)

/-- The ring emitted for a cycle of length `ℓ`:
`risk_score = 60 + (ℓ − min_len)·5`, `details = {length: ℓ}`. -/
def cycleRing (minLen : ℕ) (c : List String) : FraudRing :=
  ⟨"", c, "cycle", ((60 + (c.length - minLen) * 5 : ℕ) : ℚ), Details.cycle c.length⟩

/-- The loop body of `detect_cycles`: length filter, dedup by canonical
rotation, emission in enumeration order. -/
def detectCyclesAux (minLen maxLen : ℕ) :
    List (List String) → List (List String) → List FraudRing
  | [], _ => []
  | c :: cs, seen =>
    if minLen ≤ c.length ∧ c.length ≤ maxLen then
      if cycleKey c ∈ seen then detectCyclesAux minLen maxLen cs seen
      else cycleRing minLen c :: detectCyclesAux minLen maxLen cs (cycleKey c :: seen)
    else detectCyclesAux minLen maxLen cs seen

def detect_cycles (g : DiGraph) (minLen : ℕ := 3) (maxLen : ℕ := 5) : List FraudRing :=
  detectCyclesAux minLen maxLen (simple_cycles g) []

/-! ## Smurfing detection (`detect_smurfing`) -/

/-- The `add_reason` closure of the detectors: create the account entry on
first use, then add to its score and append the reason. -/
def addReason (m : List AccountScore) (acc : String) (score : ℚ) (reason : String) :
    List AccountScore :=
  if m.any fun a => a.account_id == acc then
    m.map fun a =>
      if a.account_id == acc then
        { a with risk_score := a.risk_score + score, reasons := a.reasons ++ [reason] }
      else a
  else m ++ [⟨acc, score, [reason]⟩]

/-- The inner two-pointer advance:
`while j < len(timestamps) and timestamps[j] - timestamps[i] <= window: j += 1`.
Structural recursion on explicit fuel so the kernel can evaluate it; the
loop body requires `j < ts.length` and increments `j`, so any fuel
`≥ ts.length` makes the fueled loop equal to the unbounded one (every call
site passes `ts.length + 1`). -/
def advanceJ (ts : List ℤ) (w ti : ℤ) : ℕ → ℕ → ℕ
  | 0, j => j
  | fuel + 1, j =>
    if j < ts.length ∧ ts.getD j 0 - ti ≤ w then advanceJ ts w ti fuel (j + 1) else j

/-- The outer scan: starting from `(i, j)`, return the first window start
`i` whose cluster reaches the threshold, with the corresponding `j`
(`break` → `some (i, j)`); `none` when the `while i` loop runs out.  The
loop body requires `i < ts.length` and increments `i`, so any fuel
`≥ ts.length` is exact (every call site passes `ts.length + 1`). -/
def scanW (ts : List ℤ) (w : ℤ) (thr : ℕ) : ℕ → ℕ → ℕ → Option (ℕ × ℕ)
  | 0, _, _ => none
  | fuel + 1, i, j =>
    if i < ts.length then
      let j2 := advanceJ ts w (ts.getD i 0) (ts.length + 1) j
      if thr ≤ j2 - i then some (i, j2) else scanW ts w thr fuel (i + 1) j2
    else none

/-- Everything the fan-in pass derives for one node once a qualifying
window is found. -/
structure SmurfHit where
  i : ℕ
  j : ℕ
  counterparties : List String
  cluster_size : ℕ
  score : ℚ
deriving DecidableEq, Repr

/-- Python `set` membership made into a list union with the hub appended:
`list(senders | {node})` (iteration order of a Python set is
hash-dependent; only membership in the result is relied upon). -/
def pyUnion (senders : List String) (node : String) : List String :=
  if node ∈ senders then senders else senders ++ [node]

/-- The fan-in scan for one node: gate on `len(incoming) >= fan_threshold`,
sort the timestamps, run the two-pointer scan; on success take the distinct
senders at positions `[i, j)` of the (unsorted) `incoming` list — exactly
the source's `incoming[k][0] for k in range(i, j)`. -/
def fan_in_hit (g : DiGraph) (thr : ℕ) (w : ℤ) (node : String) : Option SmurfHit :=
  if thr ≤ (inEdges g node).length then
    match scanW (sortAsc (fun a b => decide (a < b)) ((inEdges g node).map fun e => e.timestamp))
        w thr ((sortAsc (fun a b => decide (a < b))
          ((inEdges g node).map fun e => e.timestamp)).length + 1) 0 0 with
    | some (i, j) =>
      some ⟨i, j, dedupFirst (((inEdges g node).map fun e => e.src).drop i |>.take (j - i)),
        j - i, ((70 + (j - i - thr) * 2 : ℕ) : ℚ)⟩
    | none => none
  else none

/-- Symmetric fan-out scan: outgoing edges, receivers as counterparties. -/
def fan_out_hit (g : DiGraph) (thr : ℕ) (w : ℤ) (node : String) : Option SmurfHit :=
  if thr ≤ (outEdges g node).length then
    match scanW (sortAsc (fun a b => decide (a < b)) ((outEdges g node).map fun e => e.timestamp))
        w thr ((sortAsc (fun a b => decide (a < b))
          ((outEdges g node).map fun e => e.timestamp)).length + 1) 0 0 with
    | some (i, j) =>
      some ⟨i, j, dedupFirst (((outEdges g node).map fun e => e.dst).drop i |>.take (j - i)),
        j - i, ((70 + (j - i - thr) * 2 : ℕ) : ℚ)⟩
    | none => none
  else none

def fanInRingOf (node : String) (h : SmurfHit) : FraudRing :=
  ⟨"", pyUnion h.counterparties node, "smurfing_fan_in", h.score,
    Details.fanIn node h.cluster_size⟩

def fanOutRingOf (node : String) (h : SmurfHit) : FraudRing :=
  ⟨"", pyUnion h.counterparties node, "smurfing_fan_out", h.score,
    Details.fanOut node h.cluster_size⟩

/-- The evidence the fan-in pass adds for one hit: `score·0.6` to the
receiver, then `score·0.2` to each distinct sender. -/
def fanInScores (node : String) (h : SmurfHit) (m : List AccountScore) :
    List AccountScore :=
  let m1 := addReason m node (h.score * (3/5))
    ("Fan-in smurfing receiver from " ++ toString h.cluster_size ++ " senders")
  h.counterparties.foldl (fun m2 s => addReason m2 s (h.score * (1/5)) "Fan-in smurfing sender") m1

def fanOutScores (node : String) (h : SmurfHit) (m : List AccountScore) :
    List AccountScore :=
  let m1 := addReason m node (h.score * (3/5))
    ("Fan-out smurfing sender to " ++ toString h.cluster_size ++ " receivers")
  h.counterparties.foldl (fun m2 r => addReason m2 r (h.score * (1/5)) "Fan-out smurfing receiver") m1

/-- `detect_smurfing`: the fan-in pass over all nodes, then the fan-out
pass; each pass emits at most one ring per node (the `break`) and the
evidence map threads through both passes in node order. -/
def detect_smurfing (g : DiGraph) (thr : ℕ := 10) (w : ℤ := 72) :
    List FraudRing × List AccountScore :=
  let inRings := g.nodes.filterMap fun n => (fan_in_hit g thr w n).map (fanInRingOf n)
  let outRings := g.nodes.filterMap fun n => (fan_out_hit g thr w n).map (fanOutRingOf n)
  let m1 := g.nodes.foldl (fun m n =>
    match fan_in_hit g thr w n with
    | some h => fanInScores n h m
    | none => m) []
  let m2 := g.nodes.foldl (fun m n =>
    match fan_out_hit g thr w n with
    | some h => fanOutScores n h m
    | none => m) m1
  (inRings ++ outRings, m2)

/-! ## Shell-chain detection (`detect_shell_chains`) -/

/-- The mutable state of `detect_shell_chains`: the `visited_paths` set
(shared across all start nodes), the emitted rings, and the evidence map. -/
structure ShellState where
  visited : List (List String)
  rings : List FraudRing
  scores : List AccountScore
deriving DecidableEq, Repr

/-- The ring emitted for a qualifying path:
`risk_score = 50 + (len(intermediates) − 1)·5`. -/
def shellRingOf (path intermediates : List String) : FraudRing :=
  ⟨"", dedupFirst path, "shell_chain", ((50 + (intermediates.length - 1) * 5 : ℕ) : ℚ),
    Details.shell path intermediates⟩

/-- The emission block run on each popped `path` (after the
`len(path) - 1 > max_hops` skip): hop/length gate, low-activity interior
gate, `visited_paths` dedup, ring append, evidence. -/
def shellVisit (minH : ℕ) (low : List String) (path : List String)
    (st : ShellState) : ShellState :=
  if minH ≤ path.length - 1 ∧ 2 < path.length then
    let intermediates := (path.drop 1).dropLast
    if intermediates ≠ [] ∧ (∀ n ∈ intermediates, n ∈ low) then
      if path ∈ st.visited then st
      else
        let score : ℚ := ((50 + (intermediates.length - 1) * 5 : ℕ) : ℚ)
        let m1 := intermediates.foldl
          (fun m mid => addReason m mid (score * (2/5)) "Low-activity intermediary in shell chain")
          st.scores
        let m2 := addReason m1 (path.headD "") (score * (1/5)) "Shell chain originator"
        let m3 := addReason m2 (path.getLastD "") (score * (1/5)) "Shell chain destination"
        ⟨path :: st.visited, st.rings ++ [shellRingOf path intermediates], m3⟩
    else st
  else st

/-- One iteration of the explicit-stack DFS: pop the top entry, skip when
over `max_hops`, otherwise run the emission block and push the unvisited
out-neighbours (appended in edge order, so popped in reverse).  `fuel`
bounds the number of pops; the number of pops is at most the number of
simple paths in the graph, so `(|V| + 2)!` always suffices. -/
def shellGo (g : DiGraph) (minH maxH : ℕ) (low : List String) :
    ℕ → List (String × List String) → ShellState → ShellState
  | 0, _, st => st
  | _ + 1, [], st => st
  | fuel + 1, (current, path) :: rest, st =>
    if maxH < path.length - 1 then shellGo g minH maxH low fuel rest st
    else
      let st1 := shellVisit minH low path st
      let pushes := (outEdges g current).filterMap fun e =>
        if e.dst ∈ path then none else some (e.dst, path ++ [e.dst])
      shellGo g minH maxH low fuel (pushes.reverse ++ rest) st1

def shellFuel (g : DiGraph) : ℕ := (g.nodes.length + 2).factorial

/-- `detect_shell_chains`: precompute the low-activity node set, then run
the bounded DFS from every node, threading the state. -/
def detect_shell_chains (g : DiGraph) (minH : ℕ := 3) (maxH : ℕ := 6)
    (lowThr : ℕ := 3) : List FraudRing × List AccountScore :=
  let low := g.nodes.filter fun n => inDegree g n + outDegree g n ≤ lowThr
  let st := g.nodes.foldl
    (fun st s => shellGo g minH maxH low (shellFuel g) [(s, [s])] st)
    ⟨[], [], []⟩
  (st.rings, st.scores)

/-! ## Score combination (`combine_scores`) -/

/-- Model of `networkx.degree_centrality`: for `|V| ≤ 1` the library
returns `{n: 1 for n in G}` (its explicit guard); otherwise
`(in_degree + out_degree) / (|V| − 1)` per node, in node order. -/
def degree_centrality (g : DiGraph) : List (String × ℚ) :=
  if g.nodes.length ≤ 1 then g.nodes.map fun n => (n, 1)
  else g.nodes.map fun n =>
    (n, ((inDegree g n + outDegree g n : ℕ) : ℚ) / ((g.nodes.length : ℚ) - 1))

/-- The `ensure` helper of `combine_scores`. -/
def ensureAcc (m : List AccountScore) (acc : String) : List AccountScore :=
  if m.any fun a => a.account_id == acc then m else m ++ [⟨acc, 0, []⟩]

/-- In-place mutation of the entry for `acc` (which `ensure` has created). -/
def mapAcc (m : List AccountScore) (acc : String) (f : AccountScore → AccountScore) :
    List AccountScore :=
  m.map fun a => if a.account_id == acc then f a else a

/-- Kernel-computable floor on `ℚ` (the definition of `Rat.floor`). -/
def floorQ (q : ℚ) : ℤ := q.num / q.den

theorem floorQ_eq_floor (q : ℚ) : floorQ q = ⌊q⌋ := Rat.floor_def.symm

/-- Render a nonnegative rational with three decimals, modelling the
Python f-string `{cent:.3f}` (ties rounded up rather than to even; no
theorem depends on the rendered digits). -/
def fmt3 (q : ℚ) : String :=
  let m : ℤ := floorQ (q * 1000 + 1 / 2)
  let ip := m / 1000
  let fp := (m % 1000).toNat
  let fs := toString fp
  let pad := if fp < 10 then "00" else if fp < 100 then "0" else ""
  toString ip ++ "." ++ pad ++ fs

/-- Python `round(x, 2)` (banker's rounding on floats; modelled as round
half up on `ℚ` — the difference is immaterial to every claim below). -/
def round2 (q : ℚ) : ℚ := ((floorQ (q * 100 + 1 / 2) : ℤ) : ℚ) / 100

/-- Stable descending sort by `risk_score` (`sorted(…, key=…, reverse=True)`
on a stable sort is the same as a stable ascending sort by the negated
key). -/
def sortDescAcc (l : List AccountScore) : List AccountScore :=
  sortAsc (fun a b => decide (b.risk_score < a.risk_score)) l

/-- `combine_scores`: centrality pass, pattern-evidence fold, ring
membership boosts, then normalization to 0–100 and descending sort. -/
def combine_scores (g : DiGraph) (rings : List FraudRing)
    (patternScores : List (List AccountScore)) : List AccountScore :=
  let dc := if 0 < g.nodes.length then degree_centrality g else []
  let c1 := dc.foldl (fun m p =>
    let m1 := mapAcc (ensureAcc m p.1) p.1 fun a =>
      { a with risk_score := a.risk_score + p.2 * 20 }
    if 0 < p.2 then
      mapAcc m1 p.1 fun a =>
        { a with reasons := a.reasons ++ ["High degree centrality (" ++ fmt3 p.2 ++ ")"] }
    else m1) []
  let c2 := patternScores.foldl (fun m ps =>
    ps.foldl (fun m2 a =>
      mapAcc (ensureAcc m2 a.account_id) a.account_id fun b =>
        { b with risk_score := b.risk_score + a.risk_score,
                 reasons := b.reasons ++ a.reasons }) m) c1
  let c3 := rings.foldl (fun m r =>
    r.members.foldl (fun m2 mem =>
      mapAcc (ensureAcc m2 mem) mem fun b =>
        { b with risk_score := b.risk_score + r.risk_score * (3/10),
                 reasons := b.reasons ++ ["Member of " ++ r.pattern_type ++ " ring"] }) m) c2
  match c3 with
  | [] => []
  | c :: cs =>
    let maxS := (cs.map fun a => a.risk_score).foldl max c.risk_score
    if maxS ≤ 0 then c :: cs
    else
      sortDescAcc ((c :: cs).map fun a =>
        { a with risk_score := round2 (min 100 (a.risk_score / maxS * 100)) })

/-! ## Ring-id assignment and the result document -/

/-- Zero-padded 4-digit rendering, `f"R{i:04d}"` without the `R`. -/
def pad4 (n : ℕ) : String :=
  let s := toString n
  if n < 10 then "000" ++ s
  else if n < 100 then "00" ++ s
  else if n < 1000 then "0" ++ s
  else s

/-- The 1-based position a ring at original position `pos` with score
`r.risk_score` takes in the stable descending sort of `rings`: one plus the
number of rings that sort strictly before it (higher score, or equal score
and earlier position).  `assign_ring_ids` sorts the (mutable) rings by
descending score, numbers them in that order, and returns the list in its
original order; this rank function is exactly that semantics. -/
def ringRank (rings : List FraudRing) (pos : ℕ) (r : FraudRing) : ℕ :=
  1 + (rings.enum.filter fun q =>
    r.risk_score < q.2.risk_score ∨ (q.2.risk_score = r.risk_score ∧ q.1 < pos)).length

def assign_ring_ids (rings : List FraudRing) : List FraudRing :=
  rings.enum.map fun p => { p.2 with ring_id := "R" ++ pad4 (ringRank rings p.1 p.2) }

/-- A `graph.nodes` record of the output document. -/
structure NodeOut where
  id : String
  risk_score : ℚ
deriving DecidableEq, Repr

/-- A `graph.edges` record of the output document (the source renders the
timestamp as an ISO-8601 string; the instant is kept abstract here). -/
structure EdgeOut where
  source : String
  target : String
  transaction_id : String
  amount : ℚ
  timestamp : ℤ
deriving DecidableEq, Repr

/-- The result document of `detect_all_patterns`. -/
structure AnalysisResult where
  graph_nodes : List NodeOut
  graph_edges : List EdgeOut
  accounts : List AccountScore
  fraud_rings : List FraudRing
deriving DecidableEq, Repr

/-- `detect_all_patterns`: build the graph, run the three detectors,
assign ring ids, combine scores, and assemble the document. -/
def detect_all_patterns (rows : List Txn) : AnalysisResult :=
  let g := build_graph rows
  let cycles := detect_cycles g 3 5
  let smurf := detect_smurfing g 10 72
  let shell := detect_shell_chains g 3 6 3
  let allRings := assign_ring_ids (cycles ++ smurf.1 ++ shell.1)
  let accounts := combine_scores g allRings [smurf.2, shell.2]
  let nodes := g.nodes.map fun n =>
    NodeOut.mk n (((accounts.find? fun a => a.account_id == n).map fun a => a.risk_score).getD 0)
  let edges := (edgesData g).map fun e =>
    EdgeOut.mk e.src e.dst e.transaction_id e.amount e.timestamp
  ⟨nodes, edges, accounts, allRings⟩

/-! ## Accessors for the `details` payloads -/

/-- `details["receiver"]` of a fan-in ring. -/
def detailsReceiver : Details → Option String
  | Details.fanIn n _ => some n
  | _ => none

/-- `details["sender"]` of a fan-out ring. -/
def detailsSender : Details → Option String
  | Details.fanOut n _ => some n
  | _ => none

/-- `details["cluster_size"]` of a smurfing ring. -/
def detailsClusterSize : Details → Option ℕ
  | Details.fanIn _ c => some c
  | Details.fanOut _ c => some c
  | _ => none

/-- `details["intermediates"]` of a shell-chain ring. -/
def detailsIntermediates : Details → List String
  | Details.shell _ inter => inter
  | _ => []

/-- `details["path"]` of a shell-chain ring. -/
def detailsPath : Details → List String
  | Details.shell p _ => p
  | _ => []

/-! ## Graph-builder lemmas (for C1 and C9) -/

def edgePair (e : Edge) : String × String := (e.src, e.dst)

theorem adjl_addNode (g : DiGraph) (n : String) : (addNode g n).adjl = g.adjl := by
  unfold addNode; split <;> rfl

theorem nodes_addNode (g : DiGraph) (n : String) :
    (addNode g n).nodes = if n ∈ g.nodes then g.nodes else g.nodes ++ [n] := by
  unfold addNode; split <;> simp_all

theorem findEdge_addNode (g : DiGraph) (n s r : String) :
    findEdge (addNode g n) s r = findEdge g s r := by
  unfold findEdge; rw [adjl_addNode]

theorem pairPred_iff {e0 : Edge} {s r : String} :
    (e0.src == s && e0.dst == r) = true ↔ e0.src = s ∧ e0.dst = r := by
  simp

theorem pairPred_eq_false {e0 : Edge} {s r : String} (h : ¬ (e0.src = s ∧ e0.dst = r)) :
    (e0.src == s && e0.dst == r) = false := by
  cases hb : (e0.src == s && e0.dst == r)
  · rfl
  · exact absurd (pairPred_iff.1 hb) h

theorem hasEdge_addNode (g : DiGraph) (n s r : String) :
    hasEdge (addNode g n) s r = hasEdge g s r := by
  unfold hasEdge; rw [adjl_addNode]

theorem findEdge_mk (ns : List String) (l : List Edge) (s r : String) :
    findEdge ⟨ns, l⟩ s r = l.find? (fun e0 => e0.src == s && e0.dst == r) := rfl

theorem findEdge_addEdge (g : DiGraph) (e : Edge) (s r : String) :
    findEdge (addEdge g e) s r =
      if e.src = s ∧ e.dst = r then some e else findEdge g s r := by
  unfold addEdge
  simp only [hasEdge_addNode, adjl_addNode]
  by_cases hany : hasEdge g e.src e.dst = true
  · rw [if_pos hany, findEdge_mk, List.find?_map]
    by_cases hpair : e.src = s ∧ e.dst = r
    · have hPfQ : ((fun e0 : Edge => e0.src == s && e0.dst == r) ∘
          fun e0 => if e0.src == e.src && e0.dst == e.dst then e else e0) =
          fun e0 : Edge => e0.src == e.src && e0.dst == e.dst := by
        funext e0
        by_cases hq : e0.src = e.src ∧ e0.dst = e.dst
        · simp [Function.comp, pairPred_iff.2 hq, pairPred_iff.2 hpair]
        · have h1 := pairPred_eq_false hq
          have h2 : ¬ (e0.src = s ∧ e0.dst = r) := by
            rintro ⟨h3, h4⟩
            exact hq ⟨h3.trans hpair.1.symm, h4.trans hpair.2.symm⟩
          simp [Function.comp, h1, pairPred_eq_false h2]
      rw [hPfQ]
      have hex : ∃ e0 ∈ g.adjl, (e0.src == e.src && e0.dst == e.dst) = true :=
        List.any_eq_true.1 hany
      have hisSome := List.find?_isSome.2 hex
      rcases Option.isSome_iff_exists.1 hisSome with ⟨a, ha⟩
      have haQ := List.find?_some ha
      rw [ha, if_pos hpair]
      have hfa : (if a.src == e.src && a.dst == e.dst then e else a) = e := by
        rw [haQ]; rfl
      simp only [Option.map_some']
      rw [hfa]
    · have hPfP : ((fun e0 : Edge => e0.src == s && e0.dst == r) ∘
          fun e0 => if e0.src == e.src && e0.dst == e.dst then e else e0) =
          fun e0 : Edge => e0.src == s && e0.dst == r := by
        funext e0
        by_cases hq : e0.src = e.src ∧ e0.dst = e.dst
        · have h2 : ¬ (e0.src = s ∧ e0.dst = r) := by
            rintro ⟨h3, h4⟩
            exact hpair ⟨hq.1.symm.trans h3, hq.2.symm.trans h4⟩
          simp [Function.comp, pairPred_iff.2 hq, pairPred_eq_false hpair,
            pairPred_eq_false h2]
        · simp [Function.comp, pairPred_eq_false hq]
      rw [hPfP, if_neg hpair]
      unfold findEdge
      cases hfind : g.adjl.find? fun e0 => e0.src == s && e0.dst == r with
      | none => rfl
      | some a =>
        have haP := List.find?_some hfind
        have haQ : ¬ (a.src = e.src ∧ a.dst = e.dst) := by
          rintro ⟨h3, h4⟩
          rcases pairPred_iff.1 haP with ⟨h5, h6⟩
          exact hpair ⟨h3.symm.trans h5, h4.symm.trans h6⟩
        simp only [Option.map_some']
        rw [pairPred_eq_false haQ]
        rfl
  · have hany' : hasEdge g e.src e.dst = false := Bool.eq_false_iff.2 hany
    rw [if_neg hany, findEdge_mk, List.find?_append]
    by_cases hpair : e.src = s ∧ e.dst = r
    · have hnone : g.adjl.find? (fun e0 => e0.src == s && e0.dst == r) = none := by
        rw [List.find?_eq_none]
        intro e0 he0 hpred
        have hq : e0.src = e.src ∧ e0.dst = e.dst := by
          rcases pairPred_iff.1 hpred with ⟨h5, h6⟩
          exact ⟨h5.trans hpair.1.symm, h6.trans hpair.2.symm⟩
        exact hany (List.any_eq_true.2 ⟨e0, he0, pairPred_iff.2 hq⟩)
      unfold findEdge
      rw [hnone, if_pos hpair]
      have h1 : List.find? (fun e0 => e0.src == s && e0.dst == r) [e] = some e := by
        have hb := pairPred_iff.2 hpair
        simp [List.find?, hb]
      rw [h1]
      rfl
    · have hsingle : List.find? (fun e0 => e0.src == s && e0.dst == r) [e] = none := by
        rw [List.find?_cons_of_neg, List.find?_nil]
        rw [pairPred_eq_false hpair]
        exact Bool.false_ne_true
      unfold findEdge
      rw [hsingle, Option.or_none, if_neg hpair]

/-- One fold step of `build_graph`. -/
def buildStep (g : DiGraph) (t : Txn) : DiGraph :=
  addEdge (addNode (addNode g t.sender_id) t.receiver_id) (txEdge t)

theorem build_graph_eq_foldl (rows : List Txn) :
    build_graph rows = rows.foldl buildStep DiGraph.emptyG := rfl

theorem build_graph_append (rows : List Txn) (t : Txn) :
    build_graph (rows ++ [t]) = buildStep (build_graph rows) t := by
  rw [build_graph_eq_foldl, build_graph_eq_foldl, List.foldl_append]
  rfl

theorem findEdge_buildStep (g : DiGraph) (t : Txn) (s r : String) :
    findEdge (buildStep g t) s r =
      if t.sender_id = s ∧ t.receiver_id = r then some (txEdge t) else findEdge g s r := by
  unfold buildStep
  rw [findEdge_addEdge, findEdge_addNode, findEdge_addNode]
  rfl

/-- `build_graph` keeps, for each ordered pair, the attributes of the last
record in input order carrying that pair. -/
theorem findEdge_build_graph (rows : List Txn) (s r : String) :
    findEdge (build_graph rows) s r =
      ((rows.filter fun t => t.sender_id == s && t.receiver_id == r).getLast?).map txEdge := by
  induction rows using List.reverseRecOn with
  | nil => rfl
  | append_singleton rs t ih =>
    rw [build_graph_append, findEdge_buildStep, ih, List.filter_append]
    by_cases hm : t.sender_id = s ∧ t.receiver_id = r
    · have hf : List.filter (fun t => t.sender_id == s && t.receiver_id == r) [t] = [t] := by
        simp [hm.1, hm.2]
      rw [if_pos hm, hf, List.getLast?_concat]
      rfl
    · have hf : List.filter (fun t => t.sender_id == s && t.receiver_id == r) [t] = [] := by
        have hb : (t.sender_id == s && t.receiver_id == r) = false := by
          rcases not_and_or.1 hm with h | h <;> simp [h]
        simp [List.filter, hb]
      rw [if_neg hm, hf, List.append_nil]

/-- The structural invariant of every graph `build_graph` produces. -/
def GraphInv (g : DiGraph) : Prop :=
  g.nodes.Nodup ∧ ((g.adjl.map edgePair).Nodup ∧
    ∀ e ∈ g.adjl, e.src ∈ g.nodes ∧ e.dst ∈ g.nodes)

theorem mem_nodes_addNode {g : DiGraph} {n x : String} :
    x ∈ (addNode g n).nodes ↔ x ∈ g.nodes ∨ x = n := by
  unfold addNode
  split
  · next h => constructor
              · exact fun hx => Or.inl hx
              · rintro (hx | rfl)
                · exact hx
                · exact h
  · next h => simp

theorem graphInv_addNode {g : DiGraph} (hInv : GraphInv g) (n : String) :
    GraphInv (addNode g n) := by
  obtain ⟨h1, h2, h3⟩ := hInv
  refine ⟨?_, ?_, ?_⟩
  · unfold addNode
    split
    · exact h1
    · next h => simp [List.nodup_append, h1, h]
  · rw [adjl_addNode]; exact h2
  · rw [adjl_addNode]
    intro e he
    exact ⟨mem_nodes_addNode.2 (Or.inl (h3 e he).1),
           mem_nodes_addNode.2 (Or.inl (h3 e he).2)⟩

theorem graphInv_addEdge {g : DiGraph} (hInv : GraphInv g) (e : Edge) :
    GraphInv (addEdge g e) := by
  have hInv1 : GraphInv (addNode (addNode g e.src) e.dst) :=
    graphInv_addNode (graphInv_addNode hInv e.src) e.dst
  obtain ⟨h1, h2, h3⟩ := hInv1
  have hsrc : e.src ∈ (addNode (addNode g e.src) e.dst).nodes :=
    mem_nodes_addNode.2 (Or.inl (mem_nodes_addNode.2 (Or.inr rfl)))
  have hdst : e.dst ∈ (addNode (addNode g e.src) e.dst).nodes :=
    mem_nodes_addNode.2 (Or.inr rfl)
  unfold addEdge
  by_cases hany : hasEdge (addNode (addNode g e.src) e.dst) e.src e.dst = true
  · rw [if_pos hany]
    refine ⟨h1, ?_, ?_⟩
    · have hmap : ((addNode (addNode g e.src) e.dst).adjl.map
          fun e0 => if e0.src == e.src && e0.dst == e.dst then e else e0).map edgePair =
          (addNode (addNode g e.src) e.dst).adjl.map edgePair := by
        rw [List.map_map]
        refine List.map_congr_left ?_
        intro e0 _
        by_cases hq : e0.src = e.src ∧ e0.dst = e.dst
        · simp only [Function.comp, pairPred_iff.2 hq, if_pos]
          unfold edgePair
          rw [hq.1, hq.2]
        · simp only [Function.comp, pairPred_eq_false hq, Bool.false_eq_true,
            if_neg, not_false_iff]
      show (List.map _ _).Nodup
      rw [hmap]
      exact h2
    · intro e0 he0
      rcases List.mem_map.1 he0 with ⟨e1, he1, heq⟩
      by_cases hq : e1.src = e.src ∧ e1.dst = e.dst
      · rw [pairPred_iff.2 hq] at heq
        simp only [if_pos] at heq
        rw [← heq]
        exact ⟨hsrc, hdst⟩
      · rw [pairPred_eq_false hq] at heq
        simp only [Bool.false_eq_true, if_neg, not_false_iff] at heq
        rw [← heq]
        exact h3 e1 he1
  · rw [if_neg hany]
    refine ⟨h1, ?_, ?_⟩
    · show ((_ ++ [e]).map edgePair).Nodup
      rw [List.map_append]
      refine List.Nodup.append h2 (by simp) ?_
      intro p hp hpe
      rcases List.mem_map.1 hp with ⟨e1, he1, heq⟩
      simp only [List.map_cons, List.map_nil, List.mem_singleton] at hpe
      rw [hpe] at heq
      have hq : e1.src = e.src ∧ e1.dst = e.dst := by
        have h' := congrArg Prod.fst heq
        have h'' := congrArg Prod.snd heq
        exact ⟨h', h''⟩
      exact hany (List.any_eq_true.2 ⟨e1, he1, pairPred_iff.2 hq⟩)
    · intro e0 he0
      rcases List.mem_append.1 he0 with he0 | he0
      · exact h3 e0 he0
      · rw [List.mem_singleton.1 he0]
        exact ⟨hsrc, hdst⟩

theorem graphInv_build (rows : List Txn) : GraphInv (build_graph rows) := by
  induction rows using List.reverseRecOn with
  | nil => exact ⟨List.nodup_nil, List.nodup_nil, by intro e he; cases he⟩
  | append_singleton rs t ih =>
    rw [build_graph_append]
    exact graphInv_addEdge
      (graphInv_addNode (graphInv_addNode ih t.sender_id) t.receiver_id) (txEdge t)

/-- Partitioning a list of edges by source over a duplicate-free cover of
the sources is a permutation. -/
theorem flatten_filter_perm : ∀ (ns : List String) (l : List Edge),
    ns.Nodup → (∀ e ∈ l, e.src ∈ ns) →
    List.Perm ((ns.map fun u => l.filter fun e => e.src == u).flatten) l
  | [], l, _, hall => by
    have hl : l = [] := by
      cases l with
      | nil => rfl
      | cons e l' => exact absurd (hall e (List.mem_cons_self e l')) (by simp)
    simp [hl]
  | u :: us, l, hnd, hall => by
    rcases List.pairwise_cons.1 hnd with ⟨hu, hus⟩
    have hnotin : u ∉ us := fun h => (hu u h) rfl
    simp only [List.map_cons, List.flatten_cons]
    have hcongr : (us.map fun u' => l.filter fun e => e.src == u') =
        us.map fun u' => (l.filter fun e => !(e.src == u)).filter fun e => e.src == u' := by
      refine List.map_congr_left ?_
      intro u' hu'
      have hne : u' ≠ u := fun h => hnotin (h ▸ hu')
      rw [List.filter_filter]
      refine (List.filter_congr ?_).symm
      intro e _
      by_cases hs : e.src = u'
      · have hfalse : (e.src == u) = false := by
          have : ¬ e.src = u := fun h => hne (hs.symm.trans h)
          simp [this]
        simp [hs, hfalse, hne]
      · simp [hs]
    have hrec : List.Perm
        ((us.map fun u' => (l.filter fun e => !(e.src == u)).filter fun e => e.src == u').flatten)
        (l.filter fun e => !(e.src == u)) := by
      refine flatten_filter_perm us _ hus ?_
      intro e he
      rcases List.mem_filter.1 he with ⟨hel, hne⟩
      rcases List.mem_cons.1 (hall e hel) with h | h
      · rw [h] at hne; simp at hne
      · exact h
    rw [hcongr]
    exact (List.Perm.append_left _ hrec).trans (List.filter_append_perm _ l)

/-- `graph.edges` enumerates exactly the stored edges (in by-source order). -/
theorem edgesData_perm {g : DiGraph} (hInv : GraphInv g) :
    List.Perm (edgesData g) g.adjl := by
  unfold edgesData outEdges
  have hsrc : ∀ e ∈ g.adjl, e.src ∈ g.nodes := fun e he => (hInv.2.2 e he).1
  have hperm := flatten_filter_perm g.nodes g.adjl hInv.1 hsrc
  have : (g.nodes.map fun u => g.adjl.filter fun e => e.src == u) =
      g.nodes.map fun u => g.adjl.filter fun e => e.src == u := rfl
  exact hperm

/-- Sources of the in-edges of `n` are duplicate-free (one edge per
distinct counterparty). -/
theorem inEdges_srcs_nodup {g : DiGraph} (hInv : GraphInv g) (n : String) :
    ((inEdges g n).map fun e => e.src).Nodup := by
  have hsub : List.Sublist (inEdges g n) g.adjl := List.filter_sublist g.adjl
  have hpairs : ((inEdges g n).map edgePair).Nodup :=
    List.Nodup.sublist (hsub.map edgePair) hInv.2.1
  refine List.Nodup.map_on ?_ (List.Nodup.of_map edgePair hpairs)
  intro e1 he1 e2 he2 hsrceq
  have hd1 : e1.dst = n := by
    have := (List.mem_filter.1 he1).2
    simpa using this
  have hd2 : e2.dst = n := by
    have := (List.mem_filter.1 he2).2
    simpa using this
  have hpair : edgePair e1 = edgePair e2 := by
    unfold edgePair
    rw [hsrceq, hd1, hd2]
  exact List.inj_on_of_nodup_map hpairs he1 he2 hpair

theorem outEdges_dsts_nodup {g : DiGraph} (hInv : GraphInv g) (n : String) :
    ((outEdges g n).map fun e => e.dst).Nodup := by
  have hsub : List.Sublist (outEdges g n) g.adjl := List.filter_sublist g.adjl
  have hpairs : ((outEdges g n).map edgePair).Nodup :=
    List.Nodup.sublist (hsub.map edgePair) hInv.2.1
  refine List.Nodup.map_on ?_ (List.Nodup.of_map edgePair hpairs)
  intro e1 he1 e2 he2 hdsteq
  have hs1 : e1.src = n := by
    have := (List.mem_filter.1 he1).2
    simpa using this
  have hs2 : e2.src = n := by
    have := (List.mem_filter.1 he2).2
    simpa using this
  have hpair : edgePair e1 = edgePair e2 := by
    unfold edgePair
    rw [hdsteq, hs1, hs2]
  exact List.inj_on_of_nodup_map hpairs he1 he2 hpair

theorem findEdge_isSome_iff (g : DiGraph) (s r : String) :
    (findEdge g s r).isSome ↔ ∃ e ∈ g.adjl, e.src = s ∧ e.dst = r := by
  unfold findEdge
  rw [List.find?_isSome]
  constructor
  · rintro ⟨e, he, hp⟩
    exact ⟨e, he, pairPred_iff.1 hp⟩
  · rintro ⟨e, he, hp⟩
    exact ⟨e, he, pairPred_iff.2 hp⟩

theorem optionMap_isSome (f : α → β) (x : Option α) : (x.map f).isSome = x.isSome := by
  cases x <;> rfl

theorem findEdge_build_isSome_iff (rows : List Txn) (s r : String) :
    (findEdge (build_graph rows) s r).isSome ↔
      ∃ t ∈ rows, t.sender_id = s ∧ t.receiver_id = r := by
  rw [findEdge_build_graph, optionMap_isSome]
  rw [Option.isSome_iff_ne_none, ne_eq, List.getLast?_eq_none_iff]
  rw [← ne_eq]
  constructor
  · intro hne
    rcases List.exists_mem_of_ne_nil _ hne with ⟨t, ht⟩
    rcases List.mem_filter.1 ht with ⟨htr, hp⟩
    rw [Bool.and_eq_true] at hp
    exact ⟨t, htr, eq_of_beq hp.1, eq_of_beq hp.2⟩
  · rintro ⟨t, htr, h1, h2⟩ hnil
    have : t ∈ List.filter (fun t => t.sender_id == s && t.receiver_id == r) rows :=
      List.mem_filter.2 ⟨htr, by simp [h1, h2]⟩
    rw [hnil] at this
    cases this

theorem mem_inEdges_srcs_iff (rows : List Txn) (n s : String) :
    (s ∈ (inEdges (build_graph rows) n).map fun e => e.src) ↔
      ∃ t ∈ rows, t.sender_id = s ∧ t.receiver_id = n := by
  rw [← findEdge_build_isSome_iff, findEdge_isSome_iff]
  unfold inEdges
  constructor
  · intro hs
    rcases List.mem_map.1 hs with ⟨e, he, hsrc⟩
    rcases List.mem_filter.1 he with ⟨hel, hd⟩
    exact ⟨e, hel, hsrc, eq_of_beq (by simpa using hd)⟩
  · rintro ⟨e, hel, hsrc, hdst⟩
    exact List.mem_map.2 ⟨e, List.mem_filter.2 ⟨hel, by simp [hdst]⟩, hsrc⟩

theorem mem_outEdges_dsts_iff (rows : List Txn) (n r : String) :
    (r ∈ (outEdges (build_graph rows) n).map fun e => e.dst) ↔
      ∃ t ∈ rows, t.sender_id = n ∧ t.receiver_id = r := by
  rw [← findEdge_build_isSome_iff, findEdge_isSome_iff]
  unfold outEdges
  constructor
  · intro hs
    rcases List.mem_map.1 hs with ⟨e, he, hdst⟩
    rcases List.mem_filter.1 he with ⟨hel, hsr⟩
    exact ⟨e, hel, eq_of_beq (by simpa using hsr), hdst⟩
  · rintro ⟨e, hel, hsrc, hdst⟩
    exact List.mem_map.2 ⟨e, List.mem_filter.2 ⟨hel, by simp [hsrc]⟩, hdst⟩

theorem inDegree_build (rows : List Txn) (n : String) :
    inDegree (build_graph rows) n =
      ((rows.filter fun t => t.receiver_id == n).map fun t => t.sender_id).dedup.length := by
  have hnd1 : ((inEdges (build_graph rows) n).map fun e => e.src).Nodup :=
    inEdges_srcs_nodup (graphInv_build rows) n
  have hnd2 : ((rows.filter fun t => t.receiver_id == n).map fun t => t.sender_id).dedup.Nodup :=
    List.nodup_dedup _
  have hperm := List.perm_of_nodup_nodup_toFinset_eq hnd1 hnd2 (by
    ext x
    simp only [List.mem_toFinset, List.mem_dedup]
    rw [mem_inEdges_srcs_iff]
    constructor
    · rintro ⟨t, htr, hs, hr⟩
      exact List.mem_map.2 ⟨t, List.mem_filter.2 ⟨htr, by simp [hr]⟩, hs⟩
    · intro hx
      rcases List.mem_map.1 hx with ⟨t, ht, hs⟩
      rcases List.mem_filter.1 ht with ⟨htr, hr⟩
      exact ⟨t, htr, hs, eq_of_beq hr⟩)
  have hlen := hperm.length_eq
  rw [List.length_map] at hlen
  exact hlen

theorem outDegree_build (rows : List Txn) (n : String) :
    outDegree (build_graph rows) n =
      ((rows.filter fun t => t.sender_id == n).map fun t => t.receiver_id).dedup.length := by
  have hnd1 : ((outEdges (build_graph rows) n).map fun e => e.dst).Nodup :=
    outEdges_dsts_nodup (graphInv_build rows) n
  have hnd2 : ((rows.filter fun t => t.sender_id == n).map fun t => t.receiver_id).dedup.Nodup :=
    List.nodup_dedup _
  have hperm := List.perm_of_nodup_nodup_toFinset_eq hnd1 hnd2 (by
    ext x
    simp only [List.mem_toFinset, List.mem_dedup]
    rw [mem_outEdges_dsts_iff]
    constructor
    · rintro ⟨t, htr, hs, hr⟩
      exact List.mem_map.2 ⟨t, List.mem_filter.2 ⟨htr, by simp [hs]⟩, hr⟩
    · intro hx
      rcases List.mem_map.1 hx with ⟨t, ht, hs⟩
      rcases List.mem_filter.1 ht with ⟨htr, hr⟩
      exact ⟨t, htr, eq_of_beq hr, hs⟩)
  have hlen := hperm.length_eq
  rw [List.length_map] at hlen
  exact hlen

/-! ## Projections of the result document -/

theorem graph_edges_eq (rows : List Txn) :
    (detect_all_patterns rows).graph_edges =
      (edgesData (build_graph rows)).map fun e =>
        EdgeOut.mk e.src e.dst e.transaction_id e.amount e.timestamp := rfl

theorem accounts_eq (rows : List Txn) :
    (detect_all_patterns rows).accounts =
      combine_scores (build_graph rows)
        (assign_ring_ids (detect_cycles (build_graph rows) 3 5 ++
          (detect_smurfing (build_graph rows) 10 72).1 ++
          (detect_shell_chains (build_graph rows) 3 6 3).1))
        [(detect_smurfing (build_graph rows) 10 72).2,
         (detect_shell_chains (build_graph rows) 3 6 3).2] := rfl

theorem fraud_rings_eq (rows : List Txn) :
    (detect_all_patterns rows).fraud_rings =
      assign_ring_ids (detect_cycles (build_graph rows) 3 5 ++
        (detect_smurfing (build_graph rows) 10 72).1 ++
        (detect_shell_chains (build_graph rows) 3 6 3).1) := rfl

/-! ## Claim C1 (corrected) and claim C9 -/

/-- The two-same-pair batch: two records both `A → B`. -/
def c1Batch : List Txn := [⟨"T1", "A", "B", 100, 0⟩, ⟨"T2", "A", "B", 50, 1⟩]

/-- C1, counterexample: the claim says `graph.edges` has exactly one record
per input transaction, so two records with the ordered pair `(A, B)` should
yield two edges; the document built from `c1Batch` has a single edge
(`nx.DiGraph` collapsed the parallel edge), and that edge carries the
second record's transaction id. -/
theorem C1_counterexample :
    c1Batch.length = 2 ∧ (detect_all_patterns c1Batch).graph_edges.length = 1 ∧
      (detect_all_patterns c1Batch).graph_edges.map (fun e => e.transaction_id) = ["T2"] := by
  refine ⟨rfl, rfl, rfl⟩

/-- C1, amended: `graph.edges` contains exactly one record per *distinct*
ordered `(sender_id, receiver_id)` pair occurring among the input records
(rather than one per transaction); records repeating a pair are collapsed
into the single surviving edge. -/
theorem C1_amended (rows : List Txn) (s r : String) :
    ((detect_all_patterns rows).graph_edges.map fun e => (e.source, e.target)).Nodup ∧
    (((s, r) ∈ (detect_all_patterns rows).graph_edges.map fun e => (e.source, e.target)) ↔
      ∃ t ∈ rows, t.sender_id = s ∧ t.receiver_id = r) := by
  rw [graph_edges_eq, List.map_map]
  have hcomp : ((fun e : EdgeOut => (e.source, e.target)) ∘ fun e : Edge =>
      EdgeOut.mk e.src e.dst e.transaction_id e.amount e.timestamp) = edgePair := rfl
  rw [hcomp]
  have hperm : List.Perm ((edgesData (build_graph rows)).map edgePair)
      ((build_graph rows).adjl.map edgePair) :=
    (edgesData_perm (graphInv_build rows)).map edgePair
  constructor
  · exact (List.Perm.nodup_iff hperm).2 (graphInv_build rows).2.1
  · rw [hperm.mem_iff]
    constructor
    · intro hmem
      rcases List.mem_map.1 hmem with ⟨e, he, hpair⟩
      have hs : e.src = s := congrArg Prod.fst hpair
      have hr : e.dst = r := congrArg Prod.snd hpair
      exact (findEdge_build_isSome_iff rows s r).1
        ((findEdge_isSome_iff _ s r).2 ⟨e, he, hs, hr⟩)
    · intro hmem
      have hsome := (findEdge_build_isSome_iff rows s r).2 hmem
      rcases (findEdge_isSome_iff _ s r).1 hsome with ⟨e, he, hs, hr⟩
      refine List.mem_map.2 ⟨e, he, ?_⟩
      unfold edgePair
      rw [hs, hr]

/-- C9: `build_graph` keeps at most one edge per ordered pair; the
surviving edge carries the attributes of the last record in input order
with that pair; and the degrees count distinct counterparties rather than
transactions. -/
theorem C9_digraph_collapse (rows : List Txn) (s r n : String) :
    findEdge (build_graph rows) s r =
        ((rows.filter fun t => t.sender_id == s && t.receiver_id == r).getLast?).map txEdge ∧
      ((build_graph rows).adjl.map edgePair).Nodup ∧
      inDegree (build_graph rows) n =
        ((rows.filter fun t => t.receiver_id == n).map fun t => t.sender_id).dedup.length ∧
      outDegree (build_graph rows) n =
        ((rows.filter fun t => t.sender_id == n).map fun t => t.receiver_id).dedup.length :=
  ⟨findEdge_build_graph rows s r, (graphInv_build rows).2.1,
   inDegree_build rows n, outDegree_build rows n⟩

/-! ## Claim C3: cycle rotation-class deduplication -/

theorem foldl_min_mem {α : Type} [LinearOrder α] :
    ∀ (l : List α) (a : α), l.foldl min a ∈ a :: l
  | [], a => List.mem_singleton.2 rfl
  | x :: l, a => by
    show (l.foldl min (min a x)) ∈ a :: x :: l
    have h := foldl_min_mem l (min a x)
    rcases List.mem_cons.1 h with h | h
    · rcases min_choice a x with hm | hm
      · rw [h, hm]; exact List.mem_cons_self _ _
      · rw [h, hm]; exact List.mem_cons.2 (Or.inr (List.mem_cons_self _ _))
    · exact List.mem_cons.2 (Or.inr (List.mem_cons.2 (Or.inr h)))

theorem foldl_min_le {α : Type} [LinearOrder α] :
    ∀ (l : List α) (a : α), l.foldl min a ≤ a ∧ ∀ b ∈ l, l.foldl min a ≤ b
  | [], a => ⟨le_refl a, by intro b hb; cases hb⟩
  | x :: l, a => by
    obtain ⟨h1, h2⟩ := foldl_min_le l (min a x)
    refine ⟨le_trans h1 (min_le_left a x), ?_⟩
    intro b hb
    rcases List.mem_cons.1 hb with hb | hb
    · rw [hb]; exact le_trans h1 (min_le_right a x)
    · exact h2 b hb

theorem pyMin_mem : ∀ {l : List (List String)}, l ≠ [] → pyMin l ∈ l
  | [], h => absurd rfl h
  | x :: xs, _ => foldl_min_mem xs x

theorem pyMin_le : ∀ {l : List (List String)}, l ≠ [] → ∀ b ∈ l, pyMin l ≤ b
  | [], h => absurd rfl h
  | x :: xs, _ => by
    intro b hb
    rcases List.mem_cons.1 hb with hb | hb
    · rw [hb]; exact (foldl_min_le xs x).1
    · exact (foldl_min_le xs x).2 b hb

theorem pyMin_eq_of_mem_iff {l1 l2 : List (List String)} (h1 : l1 ≠ []) (h2 : l2 ≠ [])
    (hmm : ∀ x, x ∈ l1 ↔ x ∈ l2) : pyMin l1 = pyMin l2 :=
  le_antisymm
    (pyMin_le h1 _ ((hmm _).2 (pyMin_mem h2)))
    (pyMin_le h2 _ ((hmm _).1 (pyMin_mem h1)))

theorem mem_rotationsOf {c d : List String} (hc : c ≠ []) :
    d ∈ rotationsOf c ↔ List.IsRotated c d := by
  unfold rotationsOf
  constructor
  · intro h
    rcases List.mem_map.1 h with ⟨i, _, heq⟩
    exact ⟨i, heq⟩
  · rintro ⟨n, hn⟩
    refine List.mem_map.2 ⟨n % c.length, ?_, ?_⟩
    · exact List.mem_range.2 (Nat.mod_lt _ (List.length_pos.2 hc))
    · rw [List.rotate_mod]; exact hn

theorem rotationsOf_ne_nil {c : List String} (hc : c ≠ []) : rotationsOf c ≠ [] := by
  unfold rotationsOf
  intro h
  have := congrArg List.length h
  simp at this
  exact hc this

/-- The deduplication key is invariant on a rotation class. -/
theorem cycleKey_rotated {c d : List String} (hc : c ≠ []) (h : List.IsRotated c d) :
    cycleKey c = cycleKey d := by
  have hd : d ≠ [] := by
    intro hdn
    rw [hdn] at h
    rcases h with ⟨n, hn⟩
    exact hc (by simpa using congrArg List.length hn)
  unfold cycleKey
  refine pyMin_eq_of_mem_iff (rotationsOf_ne_nil hc) (rotationsOf_ne_nil hd) ?_
  intro x
  rw [mem_rotationsOf hc, mem_rotationsOf hd]
  exact ⟨fun hx => h.symm.trans hx, fun hx => h.trans hx⟩

theorem detectCyclesAux_key_not_seen (minLen maxLen : ℕ) :
    ∀ (cs seen : List (List String)) (r : FraudRing),
      r ∈ detectCyclesAux minLen maxLen cs seen → cycleKey r.members ∉ seen
  | [], _, r, hr => by cases hr
  | c :: cs, seen, r, hr => by
    unfold detectCyclesAux at hr
    by_cases hlen : minLen ≤ c.length ∧ c.length ≤ maxLen
    · rw [if_pos hlen] at hr
      by_cases hseen : cycleKey c ∈ seen
      · rw [if_pos hseen] at hr
        exact detectCyclesAux_key_not_seen minLen maxLen cs seen r hr
      · rw [if_neg hseen] at hr
        rcases List.mem_cons.1 hr with hr | hr
        · rw [hr]; exact hseen
        · have := detectCyclesAux_key_not_seen minLen maxLen cs (cycleKey c :: seen) r hr
          exact fun hmem => this (List.mem_cons.2 (Or.inr hmem))
    · rw [if_neg hlen] at hr
      exact detectCyclesAux_key_not_seen minLen maxLen cs seen r hr

theorem detectCyclesAux_pairwise_keys (minLen maxLen : ℕ) :
    ∀ (cs seen : List (List String)),
      (detectCyclesAux minLen maxLen cs seen).Pairwise
        (fun r1 r2 => cycleKey r1.members ≠ cycleKey r2.members)
  | [], _ => List.Pairwise.nil
  | c :: cs, seen => by
    unfold detectCyclesAux
    by_cases hlen : minLen ≤ c.length ∧ c.length ≤ maxLen
    · rw [if_pos hlen]
      by_cases hseen : cycleKey c ∈ seen
      · rw [if_pos hseen]
        exact detectCyclesAux_pairwise_keys minLen maxLen cs seen
      · rw [if_neg hseen]
        refine List.pairwise_cons.2 ⟨?_, detectCyclesAux_pairwise_keys minLen maxLen cs _⟩
        intro r2 hr2
        have := detectCyclesAux_key_not_seen minLen maxLen cs (cycleKey c :: seen) r2 hr2
        intro heq
        exact this (heq ▸ List.mem_cons_self _ _)
    · rw [if_neg hlen]
      exact detectCyclesAux_pairwise_keys minLen maxLen cs seen

theorem detectCyclesAux_members_mem (minLen maxLen : ℕ) :
    ∀ (cs seen : List (List String)) (r : FraudRing),
      r ∈ detectCyclesAux minLen maxLen cs seen → r.members ∈ cs
  | [], _, r, hr => by cases hr
  | c :: cs, seen, r, hr => by
    unfold detectCyclesAux at hr
    by_cases hlen : minLen ≤ c.length ∧ c.length ≤ maxLen
    · rw [if_pos hlen] at hr
      by_cases hseen : cycleKey c ∈ seen
      · rw [if_pos hseen] at hr
        exact List.mem_cons.2 (Or.inr (detectCyclesAux_members_mem minLen maxLen cs seen r hr))
      · rw [if_neg hseen] at hr
        rcases List.mem_cons.1 hr with hr | hr
        · rw [hr]; exact List.mem_cons_self _ _
        · exact List.mem_cons.2 (Or.inr (detectCyclesAux_members_mem minLen maxLen cs _ r hr))
    · rw [if_neg hlen] at hr
      exact List.mem_cons.2 (Or.inr (detectCyclesAux_members_mem minLen maxLen cs seen r hr))

theorem cyclesFromAux_ne_nil (g : DiGraph) (s : String) :
    ∀ (fuel : ℕ) (current : String) (path : List String), path ≠ [] →
      ∀ c ∈ cyclesFromAux g s fuel current path, c ≠ []
  | 0, _, _, _, c, hc => by cases hc
  | fuel + 1, current, path, hpath, c, hc => by
    unfold cyclesFromAux at hc
    rcases List.mem_flatMap.1 hc with ⟨e, _, hce⟩
    by_cases h1 : e.dst == s
    · rw [if_pos h1] at hce
      rw [List.mem_singleton.1 hce]
      exact hpath
    · rw [if_neg h1] at hce
      by_cases h2 : e.dst ∈ path || decide (nodeIdx g e.dst < nodeIdx g s)
      · rw [if_pos h2] at hce
        cases hce
      · rw [if_neg h2] at hce
        exact cyclesFromAux_ne_nil g s fuel e.dst (path ++ [e.dst]) (by simp) c hce

theorem simple_cycles_ne_nil (g : DiGraph) :
    ∀ c ∈ simple_cycles g, c ≠ [] := by
  intro c hc
  rcases List.mem_flatMap.1 hc with ⟨s, _, hcs⟩
  exact cyclesFromAux_ne_nil g s (g.nodes.length + 1) s [s] (by simp) c hcs

/-- C3: no two emitted `cycle` rings have node sequences in the same
rotation class (the canonical-rotation key deduplicates them), and every
emitted ring keeps its enumerator-produced rotation verbatim. -/
theorem C3_cycle_rotation_dedup (g : DiGraph) (minLen maxLen : ℕ) :
    ((detect_cycles g minLen maxLen).Pairwise fun r1 r2 =>
        ¬ List.IsRotated r1.members r2.members) ∧
    ∀ r ∈ detect_cycles g minLen maxLen, r.members ∈ simple_cycles g := by
  have hmem : ∀ r ∈ detect_cycles g minLen maxLen, r.members ∈ simple_cycles g :=
    fun r hr => detectCyclesAux_members_mem minLen maxLen (simple_cycles g) [] r hr
  refine ⟨?_, hmem⟩
  have hpw := detectCyclesAux_pairwise_keys minLen maxLen (simple_cycles g) []
  refine List.Pairwise.imp_of_mem ?_ hpw
  intro r1 r2 h1 h2 hne hrot
  have hne1 : r1.members ≠ [] := simple_cycles_ne_nil g _ (hmem r1 h1)
  exact hne (cycleKey_rotated hne1 hrot)

/-- The triangle batch `A → B → C → A`. -/
def triBatch : List Txn :=
  [⟨"T1", "A", "B", 100, 0⟩, ⟨"T2", "B", "C", 100, 1⟩, ⟨"T3", "C", "A", 100, 2⟩]

/-- Witness for C3 at the triangle graph: the single emitted cycle ring. -/
theorem C3_witness :
    (⟨"", ["A", "B", "C"], "cycle", 60, Details.cycle 3⟩ : FraudRing) ∈
        detect_cycles (build_graph triBatch) 3 5 ∧
      ["A", "B", "C"] ∈ simple_cycles (build_graph triBatch) :=
  ⟨by decide, (C3_cycle_rotation_dedup (build_graph triBatch) 3 5).2
    ⟨"", ["A", "B", "C"], "cycle", 60, Details.cycle 3⟩ (by decide)⟩

/-! ## Claim C6: shell-chain interior property -/

/-- The invariant carried by every emitted shell ring. -/
def ShellRingP (low : List String) (r : FraudRing) : Prop :=
  detailsIntermediates r.details ≠ [] ∧
  (∀ n ∈ detailsIntermediates r.details, n ∈ low) ∧
  r.risk_score = ((50 + ((detailsIntermediates r.details).length - 1) * 5 : ℕ) : ℚ)

theorem shellVisit_rings_inv (minH : ℕ) (low : List String) (path : List String)
    (st : ShellState) (hst : ∀ r ∈ st.rings, ShellRingP low r) :
    ∀ r ∈ (shellVisit minH low path st).rings, ShellRingP low r := by
  unfold shellVisit
  by_cases h1 : minH ≤ path.length - 1 ∧ 2 < path.length
  · rw [if_pos h1]
    by_cases h2 : (path.drop 1).dropLast ≠ [] ∧ ∀ n ∈ (path.drop 1).dropLast, n ∈ low
    · rw [if_pos h2]
      by_cases h3 : path ∈ st.visited
      · rw [if_pos h3]; exact hst
      · rw [if_neg h3]
        intro r hr
        rcases List.mem_append.1 hr with hr | hr
        · exact hst r hr
        · rw [List.mem_singleton.1 hr]
          exact ⟨h2.1, h2.2, rfl⟩
    · rw [if_neg h2]; exact hst
  · rw [if_neg h1]; exact hst

theorem shellGo_rings_inv (g : DiGraph) (minH maxH : ℕ) (low : List String) :
    ∀ (fuel : ℕ) (stack : List (String × List String)) (st : ShellState),
      (∀ r ∈ st.rings, ShellRingP low r) →
      ∀ r ∈ (shellGo g minH maxH low fuel stack st).rings, ShellRingP low r
  | 0, _, _, hst => hst
  | _ + 1, [], _, hst => hst
  | fuel + 1, (current, path) :: rest, st, hst => by
    show ∀ r ∈ (shellGo g minH maxH low (fuel + 1) ((current, path) :: rest) st).rings, _
    unfold shellGo
    by_cases h1 : maxH < path.length - 1
    · rw [if_pos h1]
      exact shellGo_rings_inv g minH maxH low fuel rest st hst
    · rw [if_neg h1]
      exact shellGo_rings_inv g minH maxH low fuel _ _
        (shellVisit_rings_inv minH low path st hst)

theorem detect_shell_chains_rings_inv (g : DiGraph) (minH maxH lowThr : ℕ) :
    ∀ r ∈ (detect_shell_chains g minH maxH lowThr).1,
      ShellRingP (g.nodes.filter fun n => inDegree g n + outDegree g n ≤ lowThr) r := by
  unfold detect_shell_chains
  suffices h : ∀ (ns : List String) (st : ShellState),
      (∀ r ∈ st.rings, ShellRingP (g.nodes.filter fun n => inDegree g n + outDegree g n ≤ lowThr) r) →
      ∀ r ∈ (ns.foldl (fun st s => shellGo g minH maxH
          (g.nodes.filter fun n => inDegree g n + outDegree g n ≤ lowThr)
          (shellFuel g) [(s, [s])] st) st).rings,
        ShellRingP (g.nodes.filter fun n => inDegree g n + outDegree g n ≤ lowThr) r by
    exact h g.nodes ⟨[], [], []⟩ (by intro r hr; cases hr)
  intro ns
  induction ns with
  | nil => intro st hst; exact hst
  | cons s ns ih =>
    intro st hst
    exact ih _ (shellGo_rings_inv g minH maxH _ (shellFuel g) [(s, [s])] st hst)

/-- C6: every emitted `shell_chain` ring has a non-empty interior, every
interior node has total degree at most 3 (at the default
`LOW_ACTIVITY_THRESHOLD`), and the ring's score is `50 + (|interior| − 1)·5`. -/
theorem C6_shell_interior (g : DiGraph) (r : FraudRing)
    (hr : r ∈ (detect_shell_chains g 3 6 3).1) :
    detailsIntermediates r.details ≠ [] ∧
    (∀ n ∈ detailsIntermediates r.details, inDegree g n + outDegree g n ≤ 3) ∧
    r.risk_score = ((50 + ((detailsIntermediates r.details).length - 1) * 5 : ℕ) : ℚ) := by
  obtain ⟨h1, h2, h3⟩ := detect_shell_chains_rings_inv g 3 6 3 r hr
  refine ⟨h1, ?_, h3⟩
  intro n hn
  have := h2 n hn
  have hmf := List.mem_filter.1 this
  exact of_decide_eq_true hmf.2

/-- The shell batch `A → X → Y → Z → B`. -/
def shellBatch : List Txn :=
  [⟨"T1", "A", "X", 100, 0⟩, ⟨"T2", "X", "Y", 100, 1⟩,
   ⟨"T3", "Y", "Z", 100, 2⟩, ⟨"T4", "Z", "B", 100, 3⟩]

/-- Witness for C6: the first ring emitted on `shellBatch`. -/
theorem C6_witness :
    detailsIntermediates (Details.shell ["A", "X", "Y", "Z"] ["X", "Y"]) ≠ [] ∧
    (∀ n ∈ detailsIntermediates (Details.shell ["A", "X", "Y", "Z"] ["X", "Y"]),
      inDegree (build_graph shellBatch) n + outDegree (build_graph shellBatch) n ≤ 3) ∧
    ((⟨"", ["A", "X", "Y", "Z"], "shell_chain", 55,
        Details.shell ["A", "X", "Y", "Z"] ["X", "Y"]⟩ : FraudRing).risk_score =
      ((50 + ((detailsIntermediates (Details.shell ["A", "X", "Y", "Z"] ["X", "Y"])).length - 1) * 5 : ℕ) : ℚ)) :=
  C6_shell_interior (build_graph shellBatch)
    ⟨"", ["A", "X", "Y", "Z"], "shell_chain", 55, Details.shell ["A", "X", "Y", "Z"] ["X", "Y"]⟩
    (by decide)

/-! ## Claim C7: degree centrality (corrected) -/

/-- A batch producing a single-node graph (one self-loop). -/
def selfLoopBatch : List Txn := [⟨"T1", "A", "A", 100, 0⟩]

unseal Rat.add Rat.sub Rat.mul Rat.inv in
/-- C7, counterexample: on a single-node graph the claim says centrality is
treated as 0 with no contribution, but `networkx.degree_centrality` returns
`{n: 1}` for `|V| ≤ 1`, so the lone account receives `1 · 20 = 20` and is
then normalized to 100 (instead of keeping score 0). -/
theorem C7_counterexample :
    degree_centrality (build_graph selfLoopBatch) = [("A", 1)] ∧
    (detect_all_patterns selfLoopBatch).accounts.map (fun a => (a.account_id, a.risk_score)) =
      [("A", 100)] := by
  refine ⟨by decide, by decide⟩

/-- C7, amended: centrality is `(in_degree + out_degree) / (|V| − 1)` when
`|V| ≥ 2`; when `|V| = 1` every node's centrality is `1` (networkx's
guard), contributing `20` before normalization; on an empty input batch the
pipeline emits no accounts. -/
theorem C7_amended :
    (∀ g : DiGraph, 2 ≤ g.nodes.length →
      degree_centrality g = g.nodes.map fun n =>
        (n, ((inDegree g n + outDegree g n : ℕ) : ℚ) / ((g.nodes.length : ℚ) - 1))) ∧
    (∀ g : DiGraph, g.nodes.length = 1 →
      degree_centrality g = g.nodes.map fun n => (n, (1 : ℚ))) ∧
    (detect_all_patterns []).accounts = [] := by
  refine ⟨?_, ?_, rfl⟩
  · intro g h2
    unfold degree_centrality
    rw [if_neg (by omega)]
  · intro g h1
    unfold degree_centrality
    rw [if_pos (by omega)]

/-- Witness for C7 at a two-node graph and at the single-node graph. -/
theorem C7_witness :
    degree_centrality (build_graph c1Batch) =
      (build_graph c1Batch).nodes.map (fun n =>
        (n, ((inDegree (build_graph c1Batch) n + outDegree (build_graph c1Batch) n : ℕ) : ℚ) /
          (((build_graph c1Batch).nodes.length : ℚ) - 1))) ∧
    degree_centrality (build_graph selfLoopBatch) =
      (build_graph selfLoopBatch).nodes.map fun n => (n, (1 : ℚ)) :=
  ⟨C7_amended.1 (build_graph c1Batch) (by decide),
   C7_amended.2.1 (build_graph selfLoopBatch) (by decide)⟩

/-! ## Claim C8: ring ids and ring order (corrected) -/

/-- `x` sorts strictly before `y` in the stable descending-by-score sort of
the enumerated ring list (higher score, or equal score and earlier
position). -/
def sortsBefore (x y : ℕ × FraudRing) : Prop :=
  y.2.risk_score < x.2.risk_score ∨ (x.2.risk_score = y.2.risk_score ∧ x.1 < y.1)

instance decSortsBefore (x y : ℕ × FraudRing) : Decidable (sortsBefore x y) :=
  inferInstanceAs (Decidable (_ ∨ _))

theorem sortsBefore_irrefl (x : ℕ × FraudRing) : ¬ sortsBefore x x := by
  rintro (h | ⟨_, h⟩)
  · exact lt_irrefl _ h
  · exact lt_irrefl _ h

theorem sortsBefore_trans {x y z : ℕ × FraudRing}
    (h1 : sortsBefore x y) (h2 : sortsBefore y z) : sortsBefore x z := by
  rcases h1 with h1 | ⟨h1e, h1p⟩
  · rcases h2 with h2 | ⟨h2e, h2p⟩
    · exact Or.inl (lt_trans h2 h1)
    · exact Or.inl (h2e ▸ h1)
  · rcases h2 with h2 | ⟨h2e, h2p⟩
    · exact Or.inl (h1e ▸ h2)
    · exact Or.inr ⟨h1e.trans h2e, lt_trans h1p h2p⟩

theorem sortsBefore_total {x y : ℕ × FraudRing} (h : x.1 ≠ y.1) :
    sortsBefore x y ∨ sortsBefore y x := by
  rcases lt_trichotomy x.2.risk_score y.2.risk_score with hr | hr | hr
  · exact Or.inr (Or.inl hr)
  · rcases Nat.lt_or_ge x.1 y.1 with hp | hp
    · exact Or.inl (Or.inr ⟨hr, hp⟩)
    · exact Or.inr (Or.inr ⟨hr.symm, lt_of_le_of_ne hp (Ne.symm h)⟩)
  · exact Or.inl (Or.inl hr)

theorem ringRank_eq (rings : List FraudRing) (pos : ℕ) (r : FraudRing) :
    ringRank rings pos r =
      1 + (rings.enum.filter fun q => decide (sortsBefore q (pos, r))).length := by
  unfold ringRank sortsBefore
  rfl

/-- Filter length is monotone in the predicate. -/
theorem length_filter_le_of_imp {α : Type} (p q : α → Bool) :
    ∀ (l : List α), (∀ x ∈ l, p x = true → q x = true) →
      (l.filter p).length ≤ (l.filter q).length
  | [], _ => le_refl _
  | x :: l, himp => by
    rw [List.filter_cons, List.filter_cons]
    have hrec := length_filter_le_of_imp p q l
      (fun y hy => himp y (List.mem_cons.2 (Or.inr hy)))
    cases hpx : p x
    · cases hqx : q x
      · simp only [Bool.false_eq_true, if_neg, not_false_iff]
        exact hrec
      · simp only [Bool.false_eq_true, if_neg, not_false_iff, if_pos, List.length_cons]
        omega
    · rw [himp x (List.mem_cons_self x l) hpx]
      simp only [if_pos, List.length_cons]
      omega

/-- Strict monotonicity of filter length under a strictly wider predicate. -/
theorem length_filter_lt_of_imp {α : Type} (p q : α → Bool) :
    ∀ (l : List α), (∀ x ∈ l, p x = true → q x = true) →
      ∀ a ∈ l, q a = true → p a = false →
      (l.filter p).length < (l.filter q).length
  | [], _, a, ha, _, _ => by cases ha
  | x :: l, himp, a, ha, hqa, hpa => by
    rcases List.mem_cons.1 ha with rfl | ha
    · rw [List.filter_cons, List.filter_cons, hpa, hqa]
      simp only [Bool.false_eq_true, if_neg, not_false_iff, if_pos, List.length_cons]
      have hsub := length_filter_le_of_imp p q l
        (fun y hy => himp y (List.mem_cons.2 (Or.inr hy)))
      omega
    · rw [List.filter_cons, List.filter_cons]
      have hrec := length_filter_lt_of_imp p q l
        (fun y hy => himp y (List.mem_cons.2 (Or.inr hy))) a ha hqa hpa
      cases hpx : p x
      · cases hqx : q x
        · simp only [Bool.false_eq_true, if_neg, not_false_iff]
          exact hrec
        · simp only [Bool.false_eq_true, if_neg, not_false_iff, if_pos, List.length_cons]
          omega
      · rw [himp x (List.mem_cons_self x l) hpx]
        simp only [if_pos, List.length_cons]
        omega

theorem ringRank_lt_of_sortsBefore (rings : List FraudRing)
    {p q : ℕ} {rp rq : FraudRing}
    (hp : (p, rp) ∈ rings.enum) (hbef : sortsBefore (p, rp) (q, rq)) :
    ringRank rings p rp < ringRank rings q rq := by
  rw [ringRank_eq, ringRank_eq]
  have h := length_filter_lt_of_imp
    (fun x => decide (sortsBefore x (p, rp)))
    (fun x => decide (sortsBefore x (q, rq)))
    rings.enum
    (fun x _ hx => decide_eq_true (sortsBefore_trans (of_decide_eq_true hx) hbef))
    (p, rp) hp (decide_eq_true hbef)
    (decide_eq_false (sortsBefore_irrefl (p, rp)))
  omega

theorem ringRank_pos (rings : List FraudRing) (pos : ℕ) (r : FraudRing) :
    1 ≤ ringRank rings pos r := by
  rw [ringRank_eq]; omega

theorem ringRank_le_length (rings : List FraudRing) {pos : ℕ} {r : FraudRing}
    (hmem : (pos, r) ∈ rings.enum) : ringRank rings pos r ≤ rings.length := by
  rw [ringRank_eq]
  have h := length_filter_lt_of_imp
    (fun x => decide (sortsBefore x (pos, r)))
    (fun _ => true)
    rings.enum
    (fun x _ _ => rfl)
    (pos, r) hmem rfl
    (decide_eq_false (sortsBefore_irrefl (pos, r)))
  have h2 : (rings.enum.filter fun _ => true).length = rings.enum.length := by
    rw [List.filter_true]
  rw [h2, List.enum_length] at h
  omega

theorem enum_functional {l : List FraudRing} {p : ℕ} {r1 r2 : FraudRing}
    (h1 : (p, r1) ∈ l.enum) (h2 : (p, r2) ∈ l.enum) : r1 = r2 := by
  rw [List.mem_enum_iff_getElem?] at h1 h2
  rw [h1] at h2
  simpa using Option.some_inj.1 h2

theorem ranks_nodup (rings : List FraudRing) :
    (rings.enum.map fun q => ringRank rings q.1 q.2).Nodup := by
  have henum : rings.enum.Nodup := by
    have h := List.enum_map_fst rings
    have : (rings.enum.map Prod.fst).Nodup := by
      rw [h]; exact List.nodup_range _
    exact List.Nodup.of_map Prod.fst this
  refine List.Nodup.map_on ?_ henum
  intro a ha b hb heq
  by_contra hne
  by_cases hfst : a.1 = b.1
  · have hsnd : a.2 = b.2 := by
      refine enum_functional (l := rings) (p := a.1) ?_ ?_
      · rw [← Prod.mk.eta (p := a)] at ha; exact ha
      · rw [← Prod.mk.eta (p := b), ← hfst] at hb; exact hb
    exact hne (Prod.ext hfst hsnd)
  · have ha' : (a.1, a.2) ∈ rings.enum := by rw [Prod.mk.eta]; exact ha
    have hb' : (b.1, b.2) ∈ rings.enum := by rw [Prod.mk.eta]; exact hb
    rcases sortsBefore_total (x := (a.1, a.2)) (y := (b.1, b.2)) hfst with hbef | hbef
    · have := ringRank_lt_of_sortsBefore rings ha' hbef
      omega
    · have := ringRank_lt_of_sortsBefore rings hb' hbef
      omega

theorem ranks_perm (rings : List FraudRing) :
    List.Perm (rings.enum.map fun q => ringRank rings q.1 q.2)
      ((List.range rings.length).map fun k => k + 1) := by
  have hnd2 : ((List.range rings.length).map fun k => k + 1).Nodup :=
    List.Nodup.map (fun a b h => by omega) (List.nodup_range _)
  refine List.perm_of_nodup_nodup_toFinset_eq (ranks_nodup rings) hnd2 ?_
  have hsub : (rings.enum.map fun q => ringRank rings q.1 q.2).toFinset ⊆
      ((List.range rings.length).map fun k => k + 1).toFinset := by
    intro x hx
    rw [List.mem_toFinset] at hx ⊢
    rcases List.mem_map.1 hx with ⟨q, hq, hrank⟩
    have hq' : (q.1, q.2) ∈ rings.enum := by rw [Prod.mk.eta]; exact hq
    have h1 := ringRank_pos rings q.1 q.2
    have h2 := ringRank_le_length rings hq'
    refine List.mem_map.2 ⟨x - 1, List.mem_range.2 ?_, ?_⟩
    · omega
    · omega
  have hc1 : (rings.enum.map fun q => ringRank rings q.1 q.2).toFinset.card =
      rings.length := by
    rw [List.toFinset_card_of_nodup (ranks_nodup rings)]
    rw [List.length_map, List.enum_length]
  have hc2 : ((List.range rings.length).map fun k => k + 1).toFinset.card =
      rings.length := by
    rw [List.toFinset_card_of_nodup hnd2, List.length_map, List.length_range]
  exact Finset.eq_of_subset_of_card_le hsub (by omega)

theorem enumFrom_map_snd_eq {α : Type} (f : ℕ × FraudRing → α) (g : FraudRing → α)
    (hfg : ∀ p r, f (p, r) = g r) :
    ∀ (m : List FraudRing) (k : ℕ), (m.enumFrom k).map f = m.map g
  | [], _ => rfl
  | r :: m, k => by
    simp only [List.enumFrom, List.map_cons, hfg]
    rw [enumFrom_map_snd_eq f g hfg m (k + 1)]

theorem assign_preserves_fields (rings : List FraudRing) :
    (assign_ring_ids rings).map (fun r => (r.members, r.pattern_type, r.risk_score)) =
      rings.map fun r => (r.members, r.pattern_type, r.risk_score) := by
  unfold assign_ring_ids
  rw [List.map_map]
  exact enumFrom_map_snd_eq _ _ (fun p r => rfl) rings 0

theorem assign_ring_ids_ids_perm (rings : List FraudRing) :
    List.Perm ((assign_ring_ids rings).map fun r => r.ring_id)
      ((List.range (assign_ring_ids rings).length).map fun k => "R" ++ pad4 (k + 1)) := by
  have hlen : (assign_ring_ids rings).length = rings.length := by
    unfold assign_ring_ids
    rw [List.length_map, List.enum_length]
  rw [hlen]
  unfold assign_ring_ids
  rw [List.map_map]
  have hcomp : ((fun r : FraudRing => r.ring_id) ∘ fun p : ℕ × FraudRing =>
      { p.2 with ring_id := "R" ++ pad4 (ringRank rings p.1 p.2) }) =
      (fun k => "R" ++ pad4 k) ∘ fun q : ℕ × FraudRing => ringRank rings q.1 q.2 := rfl
  rw [hcomp, ← List.map_map]
  have htar : ((List.range rings.length).map fun k => "R" ++ pad4 (k + 1)) =
      ((List.range rings.length).map fun k => k + 1).map fun k => "R" ++ pad4 k := by
    rw [List.map_map]; rfl
  rw [htar]
  exact (ranks_perm rings).map fun k => "R" ++ pad4 k

/-- A batch with one fan-in burst (hub `H`, 10 senders, score 70, detected
first) and one fan-out burst (hub `K`, 12 receivers, score 74, detected
second). -/
def c8Batch : List Txn :=
  [⟨"A0", "u0", "H", 100, 0⟩, ⟨"A1", "u1", "H", 100, 1⟩, ⟨"A2", "u2", "H", 100, 2⟩,
   ⟨"A3", "u3", "H", 100, 3⟩, ⟨"A4", "u4", "H", 100, 4⟩, ⟨"A5", "u5", "H", 100, 5⟩,
   ⟨"A6", "u6", "H", 100, 6⟩, ⟨"A7", "u7", "H", 100, 7⟩, ⟨"A8", "u8", "H", 100, 8⟩,
   ⟨"A9", "u9", "H", 100, 9⟩,
   ⟨"B0", "K", "v0", 100, 0⟩, ⟨"B1", "K", "v1", 100, 1⟩, ⟨"B2", "K", "v2", 100, 2⟩,
   ⟨"B3", "K", "v3", 100, 3⟩, ⟨"B4", "K", "v4", 100, 4⟩, ⟨"B5", "K", "v5", 100, 5⟩,
   ⟨"B6", "K", "v6", 100, 6⟩, ⟨"B7", "K", "v7", 100, 7⟩, ⟨"B8", "K", "v8", 100, 8⟩,
   ⟨"B9", "K", "v9", 100, 9⟩, ⟨"B10", "K", "v10", 100, 10⟩, ⟨"B11", "K", "v11", 100, 11⟩]

set_option maxRecDepth 40000 in
/-- C8, counterexample: on `c8Batch` the output `fraud_rings` list is
`[fan-in (score 70, id R0002), fan-out (score 74, id R0001)]` — the list is
not sorted by descending `risk_score`, and the `ring_id`s do not read
`R0001, R0002` in list order. -/
theorem C8_counterexample :
    (detect_all_patterns c8Batch).fraud_rings.map (fun r => (r.ring_id, r.risk_score)) =
      [("R0002", 70), ("R0001", 74)] := by
  decide

/-- C8, amended: the ring ids form a permutation of `R0001 … R000N`
(unique and dense), assigned by rank in the stable descending-by-score
order; but the `fraud_rings` list itself stays in detection order
(cycles, then smurfing, then shell chains), which need not be sorted. -/
theorem C8_amended (rows : List Txn) :
    List.Perm ((detect_all_patterns rows).fraud_rings.map fun r => r.ring_id)
      ((List.range (detect_all_patterns rows).fraud_rings.length).map
        fun k => "R" ++ pad4 (k + 1)) ∧
    ((detect_all_patterns rows).fraud_rings.map fun r =>
        (r.members, r.pattern_type, r.risk_score)) =
      ((detect_cycles (build_graph rows) 3 5 ++ (detect_smurfing (build_graph rows) 10 72).1 ++
        (detect_shell_chains (build_graph rows) 3 6 3).1).map fun r =>
        (r.members, r.pattern_type, r.risk_score)) ∧
    (∀ (rings : List FraudRing) (p q : ℕ) (rp rq : FraudRing),
      (p, rp) ∈ rings.enum → (q, rq) ∈ rings.enum →
      rq.risk_score < rp.risk_score → ringRank rings p rp < ringRank rings q rq) := by
  refine ⟨?_, ?_, ?_⟩
  · rw [fraud_rings_eq]
    exact assign_ring_ids_ids_perm _
  · rw [fraud_rings_eq]
    exact assign_preserves_fields _
  · intro rings p q rp rq hp _ hlt
    exact ringRank_lt_of_sortsBefore rings hp (Or.inl hlt)

set_option maxRecDepth 40000 in
/-- Witness for C8's rank monotonicity at the two rings of `c8Batch`. -/
theorem C8_witness :
    ringRank (detect_cycles (build_graph c8Batch) 3 5 ++
        (detect_smurfing (build_graph c8Batch) 10 72).1 ++
        (detect_shell_chains (build_graph c8Batch) 3 6 3).1) 1
      ((detect_cycles (build_graph c8Batch) 3 5 ++
        (detect_smurfing (build_graph c8Batch) 10 72).1 ++
        (detect_shell_chains (build_graph c8Batch) 3 6 3).1).enum.getD 1 (0, FraudRing.mk "" [] "" 0 (Details.cycle 0))).2 <
    ringRank (detect_cycles (build_graph c8Batch) 3 5 ++
        (detect_smurfing (build_graph c8Batch) 10 72).1 ++
        (detect_shell_chains (build_graph c8Batch) 3 6 3).1) 0
      ((detect_cycles (build_graph c8Batch) 3 5 ++
        (detect_smurfing (build_graph c8Batch) 10 72).1 ++
        (detect_shell_chains (build_graph c8Batch) 3 6 3).1).enum.getD 0 (0, FraudRing.mk "" [] "" 0 (Details.cycle 0))).2 :=
  (C8_amended c8Batch).2.2 _ 1 0 _ _ (by decide) (by decide) (by decide)

/-! ## Claim C4: smurfing ring members (corrected) -/

theorem mem_pyUnion {s : List String} {n x : String} :
    x ∈ pyUnion s n ↔ x ∈ s ∨ x = n := by
  unfold pyUnion
  split
  · next hn =>
    constructor
    · exact fun hx => Or.inl hx
    · rintro (hx | rfl)
      · exact hx
      · exact hn
  · simp [List.mem_append]

theorem detect_smurfing_fst (g : DiGraph) (thr : ℕ) (w : ℤ) :
    (detect_smurfing g thr w).1 =
      (g.nodes.filterMap fun n => (fan_in_hit g thr w n).map (fanInRingOf n)) ++
      (g.nodes.filterMap fun n => (fan_out_hit g thr w n).map (fanOutRingOf n)) := rfl

theorem fan_in_hit_inv {g : DiGraph} {thr : ℕ} {w : ℤ} {node : String} {h : SmurfHit}
    (heq : fan_in_hit g thr w node = some h) :
    thr ≤ (inEdges g node).length ∧
    ∃ i j, scanW (sortAsc (fun a b => decide (a < b))
        ((inEdges g node).map fun e => e.timestamp)) w thr
        ((sortAsc (fun a b => decide (a < b))
          ((inEdges g node).map fun e => e.timestamp)).length + 1) 0 0 = some (i, j) ∧
      h = ⟨i, j, dedupFirst ((((inEdges g node).map fun e => e.src).drop i).take (j - i)),
        j - i, ((70 + (j - i - thr) * 2 : ℕ) : ℚ)⟩ := by
  unfold fan_in_hit at heq
  by_cases hlen : thr ≤ (inEdges g node).length
  · rw [if_pos hlen] at heq
    refine ⟨hlen, ?_⟩
    split at heq
    · next i j hscan =>
      exact ⟨i, j, hscan, (Option.some_inj.1 heq).symm⟩
    · next hscan => cases heq
  · rw [if_neg hlen] at heq
    cases heq

theorem fan_out_hit_inv {g : DiGraph} {thr : ℕ} {w : ℤ} {node : String} {h : SmurfHit}
    (heq : fan_out_hit g thr w node = some h) :
    thr ≤ (outEdges g node).length ∧
    ∃ i j, scanW (sortAsc (fun a b => decide (a < b))
        ((outEdges g node).map fun e => e.timestamp)) w thr
        ((sortAsc (fun a b => decide (a < b))
          ((outEdges g node).map fun e => e.timestamp)).length + 1) 0 0 = some (i, j) ∧
      h = ⟨i, j, dedupFirst ((((outEdges g node).map fun e => e.dst).drop i).take (j - i)),
        j - i, ((70 + (j - i - thr) * 2 : ℕ) : ℚ)⟩ := by
  unfold fan_out_hit at heq
  by_cases hlen : thr ≤ (outEdges g node).length
  · rw [if_pos hlen] at heq
    refine ⟨hlen, ?_⟩
    split at heq
    · next i j hscan =>
      exact ⟨i, j, hscan, (Option.some_inj.1 heq).symm⟩
    · next hscan => cases heq
  · rw [if_neg hlen] at heq
    cases heq

theorem detect_smurfing_ring_cases {g : DiGraph} {thr : ℕ} {w : ℤ} {r : FraudRing}
    (hr : r ∈ (detect_smurfing g thr w).1) :
    (∃ n h, fan_in_hit g thr w n = some h ∧ r = fanInRingOf n h) ∨
    (∃ n h, fan_out_hit g thr w n = some h ∧ r = fanOutRingOf n h) := by
  rw [detect_smurfing_fst] at hr
  rcases List.mem_append.1 hr with hr | hr
  · rcases List.mem_filterMap.1 hr with ⟨n, _, hmap⟩
    rcases Option.map_eq_some'.1 hmap with ⟨h, hh, hrr⟩
    exact Or.inl ⟨n, h, hh, hrr.symm⟩
  · rcases List.mem_filterMap.1 hr with ⟨n, _, hmap⟩
    rcases Option.map_eq_some'.1 hmap with ⟨h, hh, hrr⟩
    exact Or.inr ⟨n, h, hh, hrr.symm⟩

/-- C4, amended: for every emitted `smurfing_fan_in` ring with receiver `N`
and emitted window `[i, j)` (found by the two-pointer scan over the sorted
timestamps), the members are exactly the distinct senders at *positions*
`[i, j)` of the node's (unsorted) incoming-edge list together with `N` —
the source indexes the unsorted `incoming` list with window indices of the
sorted timestamp list, so the members need not be the senders whose
timestamps fall in the window; the member order is a Python set's and is
unspecified.  Symmetrically for `smurfing_fan_out`. -/
theorem C4_amended (g : DiGraph) (thr : ℕ) (w : ℤ) (r : FraudRing)
    (hr : r ∈ (detect_smurfing g thr w).1) :
    (∀ N cs, r.details = Details.fanIn N cs →
      ∃ i j, scanW (sortAsc (fun a b => decide (a < b))
          ((inEdges g N).map fun e => e.timestamp)) w thr
          ((sortAsc (fun a b => decide (a < b))
            ((inEdges g N).map fun e => e.timestamp)).length + 1) 0 0 = some (i, j) ∧
        cs = j - i ∧ r.risk_score = ((70 + (j - i - thr) * 2 : ℕ) : ℚ) ∧
        ∀ x, x ∈ r.members ↔
          (x ∈ (((inEdges g N).map fun e => e.src).drop i).take (j - i) ∨ x = N)) ∧
    (∀ N cs, r.details = Details.fanOut N cs →
      ∃ i j, scanW (sortAsc (fun a b => decide (a < b))
          ((outEdges g N).map fun e => e.timestamp)) w thr
          ((sortAsc (fun a b => decide (a < b))
            ((outEdges g N).map fun e => e.timestamp)).length + 1) 0 0 = some (i, j) ∧
        cs = j - i ∧ r.risk_score = ((70 + (j - i - thr) * 2 : ℕ) : ℚ) ∧
        ∀ x, x ∈ r.members ↔
          (x ∈ (((outEdges g N).map fun e => e.dst).drop i).take (j - i) ∨ x = N)) := by
  constructor
  · intro N cs hdet
    rcases detect_smurfing_ring_cases hr with ⟨n, h, hh, hrr⟩ | ⟨n, h, hh, hrr⟩
    · have hdet' : Details.fanIn n h.cluster_size = Details.fanIn N cs := by
        rw [hrr] at hdet
        exact hdet
      have hn : n = N := by injection hdet'
      have hcs : h.cluster_size = cs := by injection hdet'
      subst hn
      rcases (fan_in_hit_inv hh).2 with ⟨i, j, hscan, hfields⟩
      refine ⟨i, j, hscan, ?_, ?_, ?_⟩
      · rw [← hcs, hfields]
      · rw [hrr]
        show h.score = _
        rw [hfields]
      · intro x
        rw [hrr]
        show x ∈ pyUnion h.counterparties n ↔ _
        rw [mem_pyUnion, hfields]
        show x ∈ dedupFirst _ ∨ _ ↔ _
        rw [mem_dedupFirst]
    · rw [hrr] at hdet
      cases hdet
  · intro N cs hdet
    rcases detect_smurfing_ring_cases hr with ⟨n, h, hh, hrr⟩ | ⟨n, h, hh, hrr⟩
    · rw [hrr] at hdet
      cases hdet
    · have hdet' : Details.fanOut n h.cluster_size = Details.fanOut N cs := by
        rw [hrr] at hdet
        exact hdet
      have hn : n = N := by injection hdet'
      have hcs : h.cluster_size = cs := by injection hdet'
      subst hn
      rcases (fan_out_hit_inv hh).2 with ⟨i, j, hscan, hfields⟩
      refine ⟨i, j, hscan, ?_, ?_, ?_⟩
      · rw [← hcs, hfields]
      · rw [hrr]
        show h.score = _
        rw [hfields]
      · intro x
        rw [hrr]
        show x ∈ pyUnion h.counterparties n ↔ _
        rw [mem_pyUnion, hfields]
        show x ∈ dedupFirst _ ∨ _ ↔ _
        rw [mem_dedupFirst]

/-- Eleven senders into `N`: `s1 … s10` at hours 100–109 and `s11` at hour
0.  The edge-insertion order (`s1 … s11`) differs from timestamp order. -/
def c4Batch : List Txn :=
  [⟨"T1", "s1", "N", 100, 100⟩, ⟨"T2", "s2", "N", 100, 101⟩, ⟨"T3", "s3", "N", 100, 102⟩,
   ⟨"T4", "s4", "N", 100, 103⟩, ⟨"T5", "s5", "N", 100, 104⟩, ⟨"T6", "s6", "N", 100, 105⟩,
   ⟨"T7", "s7", "N", 100, 106⟩, ⟨"T8", "s8", "N", 100, 107⟩, ⟨"T9", "s9", "N", 100, 108⟩,
   ⟨"T10", "s10", "N", 100, 109⟩, ⟨"T11", "s11", "N", 100, 0⟩]

set_option maxRecDepth 40000 in
/-- C4, counterexample: on `c4Batch` the emitted fan-in window over the
sorted timestamps `[0, 100, …, 109]` is `[1, 11)`, whose timestamps are
100–109.  `s1`'s edge has timestamp 100, inside that window, yet `s1` is
not a member; `s11`'s edge has timestamp 0, outside it, yet `s11` is a
member — the source takes `incoming[k]` for `k ∈ [i, j)` from the
*unsorted* edge list. -/
theorem C4_counterexample :
    fan_in_hit (build_graph c4Batch) 10 72 "N" =
      some ⟨1, 11, ["s2", "s3", "s4", "s5", "s6", "s7", "s8", "s9", "s10", "s11"], 10, 70⟩ ∧
    sortAsc (fun a b => decide (a < b))
        ((inEdges (build_graph c4Batch) "N").map fun e => e.timestamp) =
      [0, 100, 101, 102, 103, 104, 105, 106, 107, 108, 109] ∧
    (detect_smurfing (build_graph c4Batch) 10 72).1.length = 1 ∧
    ("s11" ∈ (((detect_smurfing (build_graph c4Batch) 10 72).1.map
      fun r => r.members).headD [])) ∧
    ¬ ("s1" ∈ (((detect_smurfing (build_graph c4Batch) 10 72).1.map
      fun r => r.members).headD [])) ∧
    (findEdge (build_graph c4Batch) "s1" "N").map (fun e => e.timestamp) = some 100 ∧
    (findEdge (build_graph c4Batch) "s11" "N").map (fun e => e.timestamp) = some 0 := by
  refine ⟨by decide, by decide, by decide, by decide, by decide, by decide, by decide⟩

set_option maxRecDepth 40000 in
/-- Witness for C4 at the single fan-in ring of `c4Batch`. -/
theorem C4_witness :
    ("s11" ∈ (fanInRingOf "N"
      ⟨1, 11, ["s2", "s3", "s4", "s5", "s6", "s7", "s8", "s9", "s10", "s11"], 10, 70⟩).members) ∧
    ¬ ("s1" ∈ (fanInRingOf "N"
      ⟨1, 11, ["s2", "s3", "s4", "s5", "s6", "s7", "s8", "s9", "s10", "s11"], 10, 70⟩).members) := by
  have h := (C4_amended (build_graph c4Batch) 10 72
    (fanInRingOf "N"
      ⟨1, 11, ["s2", "s3", "s4", "s5", "s6", "s7", "s8", "s9", "s10", "s11"], 10, 70⟩)
    (by decide)).1 "N" 10 rfl
  rcases h with ⟨i, j, hscan, _, _, hmem⟩
  have hij : i = 1 ∧ j = 11 := by
    have : scanW (sortAsc (fun a b => decide (a < b))
        ((inEdges (build_graph c4Batch) "N").map fun e => e.timestamp)) 72 10
        ((sortAsc (fun a b => decide (a < b))
          ((inEdges (build_graph c4Batch) "N").map fun e => e.timestamp)).length + 1) 0 0 =
        some (1, 11) := by decide
    rw [this] at hscan
    have h2 := Option.some_inj.1 hscan
    exact ⟨(congrArg Prod.fst h2).symm, (congrArg Prod.snd h2).symm⟩
  constructor
  · rw [hmem "s11"]
    rw [hij.1, hij.2]
    left
    decide
  · rw [hmem "s1"]
    rw [hij.1, hij.2]
    rintro (hin | heq)
    · revert hin
      decide
    · exact absurd heq (by decide)

/-! ## Claim C5: one smurfing ring per node per pass, first qualifying window -/

/-- The inner-loop guard of the two-pointer scan. -/
def advPass (ts : List ℤ) (w t : ℤ) (k : ℕ) : Prop :=
  k < ts.length ∧ ts.getD k 0 - t ≤ w

instance decAdvPass (ts : List ℤ) (w t : ℤ) (k : ℕ) : Decidable (advPass ts w t k) :=
  inferInstanceAs (Decidable (_ ∧ _))

theorem advanceJ_spec (ts : List ℤ) (w t : ℤ) :
    ∀ (fuel j : ℕ), ts.length ≤ j + fuel →
      j ≤ advanceJ ts w t fuel j ∧
      (∀ k, j ≤ k → k < advanceJ ts w t fuel j → advPass ts w t k) ∧
      ¬ advPass ts w t (advanceJ ts w t fuel j)
  | 0, j, hfuel => by
    have hunfold : advanceJ ts w t 0 j = j := rfl
    rw [hunfold]
    refine ⟨le_refl j, ?_, ?_⟩
    · intro k hk1 hk2
      omega
    · rintro ⟨hlt, _⟩
      omega
  | fuel + 1, j, hfuel => by
    have hunfold : advanceJ ts w t (fuel + 1) j =
        (if j < ts.length ∧ ts.getD j 0 - t ≤ w then advanceJ ts w t fuel (j + 1) else j) := rfl
    rw [hunfold]
    by_cases hc : j < ts.length ∧ ts.getD j 0 - t ≤ w
    · rw [if_pos hc]
      obtain ⟨ih1, ih2, ih3⟩ := advanceJ_spec ts w t fuel (j + 1) (by omega)
      refine ⟨by omega, ?_, ih3⟩
      intro k hk1 hk2
      rcases Nat.eq_or_lt_of_le hk1 with rfl | hk1'
      · exact hc
      · exact ih2 k hk1' hk2
    · rw [if_neg hc]
      refine ⟨le_refl j, ?_, hc⟩
      intro k hk1 hk2
      omega

theorem adv_unique {ts : List ℤ} {w t : ℤ} {i a1 a2 : ℕ}
    (h1a : i ≤ a1) (h1b : ∀ k, i ≤ k → k < a1 → advPass ts w t k)
    (h1c : ¬ advPass ts w t a1)
    (h2a : i ≤ a2) (h2b : ∀ k, i ≤ k → k < a2 → advPass ts w t k)
    (h2c : ¬ advPass ts w t a2) : a1 = a2 := by
  by_contra hne
  rcases Nat.lt_or_ge a1 a2 with h | h
  · exact h1c (h2b a1 h1a h)
  · have h' : a2 < a1 := by omega
    exact h2c (h1b a2 h2a h')

theorem ts_getD_mono {ts : List ℤ}
    (hsort : ts.Pairwise fun a b => a ≤ b) {i k : ℕ}
    (hik : i ≤ k) (hk : k < ts.length) : ts.getD i 0 ≤ ts.getD k 0 := by
  rcases Nat.eq_or_lt_of_le hik with rfl | hlt
  · exact le_refl _
  · have hi : i < ts.length := lt_trans hlt hk
    rw [List.getD_eq_getElem ts 0 hi, List.getD_eq_getElem ts 0 hk]
    exact List.pairwise_iff_get.1 hsort ⟨i, hi⟩ ⟨k, hk⟩ hlt

theorem advPass_mono {ts : List ℤ} {w t1 t2 : ℤ} {k : ℕ}
    (ht : t1 ≤ t2) (h : advPass ts w t1 k) : advPass ts w t2 k :=
  ⟨h.1, by have := h.2; omega⟩

/-- The "fresh" two-pointer advance for window start `i`: the window end
the loop computes at `i` (two-pointer carrying is equivalent, proven in
`scanW_spec`). -/
def trueJ (ts : List ℤ) (w : ℤ) (i : ℕ) : ℕ :=
  advanceJ ts w (ts.getD i 0) (ts.length + 1) i

/-- Specification of the outer scan: a returned `(i, j)` has `j` equal to
the fresh advance at `i`, its cluster reaches the threshold, and every
earlier window start has a cluster below the threshold. -/
theorem scanW_spec (ts : List ℤ) (w : ℤ) (thr : ℕ)
    (hsort : ts.Pairwise fun a b => a ≤ b) (hw : 0 ≤ w) :
    ∀ (fuel i j : ℕ), ts.length ≤ i + fuel →
      (i < ts.length → ∀ k, k < j → advPass ts w (ts.getD i 0) k) →
      (∀ i', i' < i → trueJ ts w i' - i' < thr) →
      ∀ i0 j0, scanW ts w thr fuel i j = some (i0, j0) →
        j0 = trueJ ts w i0 ∧ thr ≤ j0 - i0 ∧
        ∀ i', i' < i0 → trueJ ts w i' - i' < thr
  | 0, i, j, _, _, _, i0, j0, heq => by cases heq
  | fuel + 1, i, j, hfuel, hP, hacc, i0, j0, heq => by
    rw [show scanW ts w thr (fuel + 1) i j = (if i < ts.length then
        (if thr ≤ advanceJ ts w (ts.getD i 0) (ts.length + 1) j - i
          then some (i, advanceJ ts w (ts.getD i 0) (ts.length + 1) j)
          else scanW ts w thr fuel (i + 1) (advanceJ ts w (ts.getD i 0) (ts.length + 1) j))
        else none) from rfl] at heq
    by_cases hi : i < ts.length
    · rw [if_pos hi] at heq
      obtain ⟨hj2a, hj2b, hj2c⟩ :=
        advanceJ_spec ts w (ts.getD i 0) (ts.length + 1) j (by omega)
      obtain ⟨hIa, hIb, hIc⟩ :=
        advanceJ_spec ts w (ts.getD i 0) (ts.length + 1) i (by omega)
      have hij2 : i ≤ advanceJ ts w (ts.getD i 0) (ts.length + 1) j := by
        by_contra hlt
        have hlt' : advanceJ ts w (ts.getD i 0) (ts.length + 1) j < i := by omega
        refine hj2c ⟨by omega, ?_⟩
        have := ts_getD_mono hsort (le_of_lt hlt') hi
        omega
      have hj2I : advanceJ ts w (ts.getD i 0) (ts.length + 1) j = trueJ ts w i := by
        refine adv_unique hij2 ?_ hj2c hIa hIb hIc
        intro k hk1 hk2
        rcases Nat.lt_or_ge k j with hkj | hkj
        · exact hP hi k hkj
        · exact hj2b k hkj hk2
      by_cases hthr : thr ≤ advanceJ ts w (ts.getD i 0) (ts.length + 1) j - i
      · rw [if_pos hthr] at heq
        have h2 := Option.some_inj.1 heq
        have hii : i = i0 := congrArg Prod.fst h2
        have hjj : advanceJ ts w (ts.getD i 0) (ts.length + 1) j = j0 := congrArg Prod.snd h2
        subst hii
        refine ⟨by rw [← hjj, hj2I], by omega, hacc⟩
      · rw [if_neg hthr] at heq
        refine scanW_spec ts w thr hsort hw fuel (i + 1)
          (advanceJ ts w (ts.getD i 0) (ts.length + 1) j) (by omega) ?_ ?_ i0 j0 heq
        · intro hi1 k hk
          have hpk : advPass ts w (ts.getD i 0) k := by
            rcases Nat.lt_or_ge k j with hkj | hkj
            · exact hP hi k hkj
            · exact hj2b k hkj hk
          exact advPass_mono (ts_getD_mono hsort (by omega) hi1) hpk
        · intro i' hi'
          rcases Nat.lt_or_ge i' i with h' | h'
          · exact hacc i' h'
          · have : i' = i := by omega
            subst this
            rw [← hj2I]
            omega
    · rw [if_neg hi] at heq
      cases heq

theorem filterMap_filter_nil (f : String → Option FraudRing) (p : FraudRing → Bool) :
    ∀ ns : List String, (∀ n ∈ ns, ∀ r, f n = some r → p r = false) →
      (ns.filterMap f).filter p = []
  | [], _ => rfl
  | n :: ns, hnone => by
    have hrest := filterMap_filter_nil f p ns
      (fun n' hn' => hnone n' (List.mem_cons.2 (Or.inr hn')))
    cases hf : f n with
    | none => rw [List.filterMap_cons_none hf]; exact hrest
    | some r =>
      rw [List.filterMap_cons_some hf, List.filter_cons]
      rw [hnone n (List.mem_cons_self n ns) r hf]
      simp only [Bool.false_eq_true, if_neg, not_false_iff]
      exact hrest

theorem filterMap_filter_le_one (f : String → Option FraudRing) (p : FraudRing → Bool)
    (N : String) (hkey : ∀ n r, f n = some r → p r = true → n = N) :
    ∀ ns : List String, ns.Nodup → ((ns.filterMap f).filter p).length ≤ 1
  | [], _ => by simp
  | n :: ns, hnd => by
    rcases List.pairwise_cons.1 hnd with ⟨hn, hnd'⟩
    have hrest := filterMap_filter_le_one f p N hkey ns hnd'
    cases hf : f n with
    | none => rw [List.filterMap_cons_none hf]; exact hrest
    | some r =>
      rw [List.filterMap_cons_some hf, List.filter_cons]
      cases hp : p r
      · simp only [Bool.false_eq_true, if_neg, not_false_iff]
        exact hrest
      · simp only [if_pos, List.length_cons]
        have hnil : (ns.filterMap f).filter p = [] := by
          refine filterMap_filter_nil f p ns ?_
          intro n' hn' r' hf'
          cases hp' : p r'
          · rfl
          · have h1 : n = N := hkey n r hf hp
            have h2 : n' = N := hkey n' r' hf' hp'
            exact absurd (h2.trans h1.symm) (Ne.symm (hn n' hn'))
        rw [hnil]
        simp

theorem sortAsc_sorted_le (l : List ℤ) :
    (sortAsc (fun a b => decide (a < b)) l).Pairwise fun a b => a ≤ b := by
  have h := pairwise_sortAsc (fun a b : ℤ => decide (a < b))
    (fun a b hab => decide_eq_false (not_lt_of_lt (of_decide_eq_true hab)))
    (fun a b c hab hbc => decide_eq_false (by
      have h1 : ¬ a < b := of_decide_eq_false hab
      have h2 : ¬ b < c := of_decide_eq_false hbc
      omega)) l
  refine h.imp ?_
  intro a b hab
  have : ¬ b < a := of_decide_eq_false hab
  omega

/-- C5: at most one fan-in ring per receiver and one fan-out ring per
sender, and the emitted hit uses the first window start whose cluster
reaches the threshold. -/
theorem C5_single_emission (g : DiGraph) (thr : ℕ) (w : ℤ) (N : String)
    (hw : 0 ≤ w) (hnd : g.nodes.Nodup) :
    ((detect_smurfing g thr w).1.filter fun r =>
        decide (r.pattern_type = "smurfing_fan_in" ∧ detailsReceiver r.details = some N)).length ≤ 1 ∧
    ((detect_smurfing g thr w).1.filter fun r =>
        decide (r.pattern_type = "smurfing_fan_out" ∧ detailsSender r.details = some N)).length ≤ 1 ∧
    (∀ h, fan_in_hit g thr w N = some h →
      h.j = trueJ (sortAsc (fun a b => decide (a < b))
          ((inEdges g N).map fun e => e.timestamp)) w h.i ∧
      thr ≤ h.j - h.i ∧
      ∀ i', i' < h.i →
        trueJ (sortAsc (fun a b => decide (a < b))
          ((inEdges g N).map fun e => e.timestamp)) w i' - i' < thr) ∧
    (∀ h, fan_out_hit g thr w N = some h →
      h.j = trueJ (sortAsc (fun a b => decide (a < b))
          ((outEdges g N).map fun e => e.timestamp)) w h.i ∧
      thr ≤ h.j - h.i ∧
      ∀ i', i' < h.i →
        trueJ (sortAsc (fun a b => decide (a < b))
          ((outEdges g N).map fun e => e.timestamp)) w i' - i' < thr) := by
  refine ⟨?_, ?_, ?_, ?_⟩
  · rw [detect_smurfing_fst, List.filter_append]
    have hout : ((g.nodes.filterMap fun n => (fan_out_hit g thr w n).map (fanOutRingOf n)).filter
        fun r => decide (r.pattern_type = "smurfing_fan_in" ∧
          detailsReceiver r.details = some N)) = [] := by
      refine filterMap_filter_nil _ _ g.nodes ?_
      intro n _ r hf
      rcases Option.map_eq_some'.1 hf with ⟨h, _, hr⟩
      rw [← hr]
      refine decide_eq_false ?_
      rintro ⟨hpat, _⟩
      have hpat' : "smurfing_fan_out" = "smurfing_fan_in" := hpat
      exact absurd hpat' (by decide)
    rw [hout, List.append_nil]
    refine filterMap_filter_le_one _ _ N ?_ g.nodes hnd
    intro n r hf hp
    rcases Option.map_eq_some'.1 hf with ⟨h, _, hr⟩
    rw [← hr] at hp
    have := of_decide_eq_true hp
    exact Option.some_inj.1 this.2
  · rw [detect_smurfing_fst, List.filter_append]
    have hin : ((g.nodes.filterMap fun n => (fan_in_hit g thr w n).map (fanInRingOf n)).filter
        fun r => decide (r.pattern_type = "smurfing_fan_out" ∧
          detailsSender r.details = some N)) = [] := by
      refine filterMap_filter_nil _ _ g.nodes ?_
      intro n _ r hf
      rcases Option.map_eq_some'.1 hf with ⟨h, _, hr⟩
      rw [← hr]
      refine decide_eq_false ?_
      rintro ⟨hpat, _⟩
      have hpat' : "smurfing_fan_in" = "smurfing_fan_out" := hpat
      exact absurd hpat' (by decide)
    rw [hin, List.nil_append]
    refine filterMap_filter_le_one _ _ N ?_ g.nodes hnd
    intro n r hf hp
    rcases Option.map_eq_some'.1 hf with ⟨h, _, hr⟩
    rw [← hr] at hp
    have := of_decide_eq_true hp
    exact Option.some_inj.1 this.2
  · intro h hh
    rcases (fan_in_hit_inv hh).2 with ⟨i, j, hscan, hfields⟩
    have hsort := sortAsc_sorted_le ((inEdges g N).map fun e => e.timestamp)
    have hspec := scanW_spec _ w thr hsort hw _ 0 0 (by omega)
      (by intro _ k hk; omega) (by intro i' hi'; omega) i j hscan
    rw [hfields]
    exact hspec
  · intro h hh
    rcases (fan_out_hit_inv hh).2 with ⟨i, j, hscan, hfields⟩
    have hsort := sortAsc_sorted_le ((outEdges g N).map fun e => e.timestamp)
    have hspec := scanW_spec _ w thr hsort hw _ 0 0 (by omega)
      (by intro _ k hk; omega) (by intro i' hi'; omega) i j hscan
    rw [hfields]
    exact hspec

set_option maxRecDepth 40000 in
/-- Witness for C5 at the `c4Batch` graph, node `N`, and its emitted hit
`(i, j) = (1, 11)`. -/
theorem C5_witness :
    ((detect_smurfing (build_graph c4Batch) 10 72).1.filter fun r =>
      decide (r.pattern_type = "smurfing_fan_in" ∧
        detailsReceiver r.details = some "N")).length ≤ 1 ∧
    ((10 : ℕ) ≤ 11 - 1 ∧
      ∀ i', i' < 1 →
        trueJ (sortAsc (fun a b => decide (a < b))
          ((inEdges (build_graph c4Batch) "N").map fun e => e.timestamp)) 72 i' - i' < 10) := by
  have H := C5_single_emission (build_graph c4Batch) 10 72 "N" (by decide) (by decide)
  refine ⟨H.1, ?_⟩
  have H3 := H.2.2.1
    ⟨1, 11, ["s2", "s3", "s4", "s5", "s6", "s7", "s8", "s9", "s10", "s11"], 10, 70⟩
    (by decide)
  exact ⟨H3.2.1, H3.2.2⟩

/-! ## Score-map lemmas (for C2 and C10) -/

/-- The account ids present in an evidence map. -/
def keys (m : List AccountScore) : List String := m.map fun a => a.account_id

/-- All stored scores are nonnegative. -/
def AllNonneg (m : List AccountScore) : Prop := ∀ a ∈ m, 0 ≤ a.risk_score

theorem keys_ensureAcc {m : List AccountScore} {k x : String} :
    x ∈ keys (ensureAcc m k) ↔ x ∈ keys m ∨ x = k := by
  unfold ensureAcc keys
  by_cases hk : m.any fun a => a.account_id == k
  · rw [if_pos hk]
    constructor
    · exact fun h => Or.inl h
    · rintro (h | rfl)
      · exact h
      · rcases List.any_eq_true.1 hk with ⟨a, ha, hak⟩
        exact List.mem_map.2 ⟨a, ha, eq_of_beq hak⟩
  · rw [if_neg hk]
    rw [List.map_append]
    simp [List.mem_append]

theorem nonneg_ensureAcc {m : List AccountScore} {k : String} (hm : AllNonneg m) :
    AllNonneg (ensureAcc m k) := by
  unfold ensureAcc
  split
  · exact hm
  · intro a ha
    rcases List.mem_append.1 ha with ha | ha
    · exact hm a ha
    · rw [List.mem_singleton.1 ha]

theorem keys_mapAcc {m : List AccountScore} {k : String} {f : AccountScore → AccountScore}
    (hf : ∀ b, (f b).account_id = b.account_id) : keys (mapAcc m k f) = keys m := by
  unfold mapAcc keys
  rw [List.map_map]
  refine List.map_congr_left ?_
  intro a _
  show (if a.account_id == k then f a else a).account_id = a.account_id
  split
  · exact hf a
  · rfl

theorem nonneg_mapAcc {m : List AccountScore} {k : String} {f : AccountScore → AccountScore}
    (hf : ∀ b, 0 ≤ b.risk_score → 0 ≤ (f b).risk_score) (hm : AllNonneg m) :
    AllNonneg (mapAcc m k f) := by
  unfold mapAcc
  intro a ha
  rcases List.mem_map.1 ha with ⟨b, hb, hab⟩
  rw [← hab]
  split
  · exact hf b (hm b hb)
  · exact hm b hb

theorem keys_addReason {m : List AccountScore} {acc : String} {s : ℚ} {reason : String}
    {x : String} : x ∈ keys (addReason m acc s reason) ↔ x ∈ keys m ∨ x = acc := by
  unfold addReason keys
  by_cases hk : m.any fun a => a.account_id == acc
  · rw [if_pos hk]
    rw [List.map_map]
    have : ((fun a : AccountScore => a.account_id) ∘ fun a =>
        if a.account_id == acc then
          { a with risk_score := a.risk_score + s, reasons := a.reasons ++ [reason] }
        else a) = fun a : AccountScore => a.account_id := by
      funext a
      show (if a.account_id == acc then _ else a).account_id = a.account_id
      split
      · rfl
      · rfl
    rw [this]
    constructor
    · exact fun h => Or.inl h
    · rintro (h | rfl)
      · exact h
      · rcases List.any_eq_true.1 hk with ⟨a, ha, hak⟩
        exact List.mem_map.2 ⟨a, ha, eq_of_beq hak⟩
  · rw [if_neg hk]
    rw [List.map_append]
    simp [List.mem_append]

theorem nonneg_addReason {m : List AccountScore} {acc : String} {s : ℚ} {reason : String}
    (hs : 0 ≤ s) (hm : AllNonneg m) : AllNonneg (addReason m acc s reason) := by
  unfold addReason
  split
  · intro a ha
    rcases List.mem_map.1 ha with ⟨b, hb, hab⟩
    rw [← hab]
    split
    · show 0 ≤ b.risk_score + s
      have := hm b hb
      linarith
    · exact hm b hb
  · intro a ha
    rcases List.mem_append.1 ha with ha | ha
    · exact hm a ha
    · rw [List.mem_singleton.1 ha]
      exact hs

theorem foldl_preserve_mem {α β : Type} (P : α → Prop) (step : α → β → α) :
    ∀ (l : List β), (∀ a b, b ∈ l → P a → P (step a b)) →
      ∀ a, P a → P (l.foldl step a)
  | [], _, _, ha => ha
  | b :: l, hstep, a, ha =>
    foldl_preserve_mem P step l
      (fun a' b' hb' => hstep a' b' (List.mem_cons.2 (Or.inr hb')))
      (step a b) (hstep a b (List.mem_cons_self b l) ha)

theorem fan_in_hit_score_nonneg {g : DiGraph} {thr : ℕ} {w : ℤ} {node : String}
    {h : SmurfHit} (heq : fan_in_hit g thr w node = some h) : 0 ≤ h.score := by
  rcases (fan_in_hit_inv heq).2 with ⟨i, j, _, hf⟩
  rw [hf]
  exact Nat.cast_nonneg _

theorem fan_out_hit_score_nonneg {g : DiGraph} {thr : ℕ} {w : ℤ} {node : String}
    {h : SmurfHit} (heq : fan_out_hit g thr w node = some h) : 0 ≤ h.score := by
  rcases (fan_out_hit_inv heq).2 with ⟨i, j, _, hf⟩
  rw [hf]
  exact Nat.cast_nonneg _

theorem fanInScores_nonneg {node : String} {h : SmurfHit} {m : List AccountScore}
    (hs : 0 ≤ h.score) (hm : AllNonneg m) : AllNonneg (fanInScores node h m) := by
  unfold fanInScores
  refine foldl_preserve_mem AllNonneg _ h.counterparties ?_ _ ?_
  · intro m' s _ hm'
    exact nonneg_addReason (by positivity) hm'
  · exact nonneg_addReason (by positivity) hm

theorem fanOutScores_nonneg {node : String} {h : SmurfHit} {m : List AccountScore}
    (hs : 0 ≤ h.score) (hm : AllNonneg m) : AllNonneg (fanOutScores node h m) := by
  unfold fanOutScores
  refine foldl_preserve_mem AllNonneg _ h.counterparties ?_ _ ?_
  · intro m' s _ hm'
    exact nonneg_addReason (by positivity) hm'
  · exact nonneg_addReason (by positivity) hm

theorem detect_smurfing_snd (g : DiGraph) (thr : ℕ) (w : ℤ) :
    (detect_smurfing g thr w).2 =
      g.nodes.foldl (fun m n =>
        match fan_out_hit g thr w n with
        | some h => fanOutScores n h m
        | none => m)
        (g.nodes.foldl (fun m n =>
          match fan_in_hit g thr w n with
          | some h => fanInScores n h m
          | none => m) []) := rfl

theorem detect_smurfing_scores_nonneg (g : DiGraph) (thr : ℕ) (w : ℤ) :
    AllNonneg (detect_smurfing g thr w).2 := by
  rw [detect_smurfing_snd]
  refine foldl_preserve_mem AllNonneg _ g.nodes ?_ _
    (foldl_preserve_mem AllNonneg _ g.nodes ?_ [] ?_)
  · intro m n _ hm
    cases hh : fan_out_hit g thr w n with
    | none => exact hm
    | some h => exact fanOutScores_nonneg (fan_out_hit_score_nonneg hh) hm
  · intro m n _ hm
    cases hh : fan_in_hit g thr w n with
    | none => exact hm
    | some h => exact fanInScores_nonneg (fan_in_hit_score_nonneg hh) hm
  · intro a ha
    cases ha

theorem fan_in_hit_cparties_sub {g : DiGraph} {thr : ℕ} {w : ℤ} {node : String}
    {h : SmurfHit} (hInv : GraphInv g) (heq : fan_in_hit g thr w node = some h) :
    ∀ x ∈ h.counterparties, x ∈ g.nodes := by
  rcases (fan_in_hit_inv heq).2 with ⟨i, j, _, hf⟩
  rw [hf]
  intro x hx
  have hx1 := mem_dedupFirst.1 hx
  have hx2 : x ∈ ((inEdges g node).map fun e => e.src).drop i :=
    List.Sublist.mem hx1 (List.take_sublist _ _)
  have hx3 : x ∈ (inEdges g node).map fun e => e.src :=
    List.Sublist.mem hx2 (List.drop_sublist _ _)
  rcases List.mem_map.1 hx3 with ⟨e, he, hex⟩
  have he' : e ∈ g.adjl := (List.mem_filter.1 he).1
  rw [← hex]
  exact (hInv.2.2 e he').1

theorem fan_out_hit_cparties_sub {g : DiGraph} {thr : ℕ} {w : ℤ} {node : String}
    {h : SmurfHit} (hInv : GraphInv g) (heq : fan_out_hit g thr w node = some h) :
    ∀ x ∈ h.counterparties, x ∈ g.nodes := by
  rcases (fan_out_hit_inv heq).2 with ⟨i, j, _, hf⟩
  rw [hf]
  intro x hx
  have hx1 := mem_dedupFirst.1 hx
  have hx2 : x ∈ ((outEdges g node).map fun e => e.dst).drop i :=
    List.Sublist.mem hx1 (List.take_sublist _ _)
  have hx3 : x ∈ (outEdges g node).map fun e => e.dst :=
    List.Sublist.mem hx2 (List.drop_sublist _ _)
  rcases List.mem_map.1 hx3 with ⟨e, he, hex⟩
  have he' : e ∈ g.adjl := (List.mem_filter.1 he).1
  rw [← hex]
  exact (hInv.2.2 e he').2

/-- The map after a fold of `addReason`s has keys inside the old keys and
the added accounts. -/
theorem keys_addReason_foldl {g : DiGraph} (cps : List String) (node : String)
    ( _hnode : node ∈ g.nodes) (hcps : ∀ x ∈ cps, x ∈ g.nodes) (δ : ℚ) (reason : String) :
    ∀ (m : List AccountScore), (∀ x ∈ keys m, x ∈ g.nodes) →
      ∀ x ∈ keys (cps.foldl (fun m2 s => addReason m2 s δ reason) m), x ∈ g.nodes := by
  intro m hm
  refine foldl_preserve_mem (fun m2 => ∀ x ∈ keys m2, x ∈ g.nodes) _ cps ?_ m hm
  intro m2 s hs hm2 x hx
  rcases keys_addReason.1 hx with hx | rfl
  · exact hm2 x hx
  · exact hcps _ hs

theorem fanInScores_keys_sub {g : DiGraph} {thr : ℕ} {w : ℤ} {node : String}
    {h : SmurfHit} (hInv : GraphInv g) (hnode : node ∈ g.nodes)
    (heq : fan_in_hit g thr w node = some h) {m : List AccountScore}
    (hm : ∀ x ∈ keys m, x ∈ g.nodes) :
    ∀ x ∈ keys (fanInScores node h m), x ∈ g.nodes := by
  unfold fanInScores
  refine keys_addReason_foldl h.counterparties node hnode
    (fan_in_hit_cparties_sub hInv heq) _ _ _ ?_
  intro x hx
  rcases keys_addReason.1 hx with hx | rfl
  · exact hm x hx
  · exact hnode

theorem fanOutScores_keys_sub {g : DiGraph} {thr : ℕ} {w : ℤ} {node : String}
    {h : SmurfHit} (hInv : GraphInv g) (hnode : node ∈ g.nodes)
    (heq : fan_out_hit g thr w node = some h) {m : List AccountScore}
    (hm : ∀ x ∈ keys m, x ∈ g.nodes) :
    ∀ x ∈ keys (fanOutScores node h m), x ∈ g.nodes := by
  unfold fanOutScores
  refine keys_addReason_foldl h.counterparties node hnode
    (fan_out_hit_cparties_sub hInv heq) _ _ _ ?_
  intro x hx
  rcases keys_addReason.1 hx with hx | rfl
  · exact hm x hx
  · exact hnode

theorem detect_smurfing_keys_sub (g : DiGraph) (thr : ℕ) (w : ℤ) (hInv : GraphInv g) :
    ∀ x ∈ keys (detect_smurfing g thr w).2, x ∈ g.nodes := by
  rw [detect_smurfing_snd]
  refine foldl_preserve_mem (fun m => ∀ x ∈ keys m, x ∈ g.nodes) _ g.nodes ?_ _
    (foldl_preserve_mem (fun m => ∀ x ∈ keys m, x ∈ g.nodes) _ g.nodes ?_ [] ?_)
  · intro m n hn hm
    cases hh : fan_out_hit g thr w n with
    | none => exact hm
    | some h => exact fanOutScores_keys_sub hInv hn hh hm
  · intro m n hn hm
    cases hh : fan_in_hit g thr w n with
    | none => exact hm
    | some h => exact fanInScores_keys_sub hInv hn hh hm
  · intro x hx
    cases hx

/-- Members of every smurfing ring are graph nodes. -/
theorem detect_smurfing_members_sub (g : DiGraph) (thr : ℕ) (w : ℤ) (hInv : GraphInv g)
    {r : FraudRing} (hr : r ∈ (detect_smurfing g thr w).1) :
    ∀ x ∈ r.members, x ∈ g.nodes := by
  have hnodes : ∀ (n : String) (h : SmurfHit),
      (fan_in_hit g thr w n = some h ∨ fan_out_hit g thr w n = some h) → n ∈ g.nodes := by
    intro n h hh
    rcases hh with hh | hh
    · have := (fan_in_hit_inv hh).1
      rcases Nat.lt_or_ge 0 (inEdges g n).length with hpos | hzero
      · have : ∃ e, e ∈ inEdges g n := List.exists_mem_of_length_pos hpos
        rcases this with ⟨e, he⟩
        have he' := List.mem_filter.1 he
        have hd : e.dst = n := by simpa using he'.2
        rw [← hd]
        exact (hInv.2.2 e he'.1).2
      · -- empty incoming list: the hit cannot exist unless thr = 0; handle via scan
        rcases (fan_in_hit_inv hh).2 with ⟨i, j, hscan, _⟩
        have hlen : (inEdges g n).length = 0 := by omega
        exfalso
        have hts : (sortAsc (fun a b => decide (a < b))
            ((inEdges g n).map fun e => e.timestamp)).length = 0 := by
          rw [(perm_sortAsc _ _).length_eq, List.length_map, hlen]
        rcases List.length_eq_zero.1 hts with hnil
        rw [hnil] at hscan
        have : scanW [] w thr 1 0 0 = none := by
          show (if (0 : ℕ) < ([] : List ℤ).length then _ else none) = none
          rw [if_neg (by simp)]
        rw [List.length_nil] at hscan
        rw [this] at hscan
        cases hscan
    · have := (fan_out_hit_inv hh).1
      rcases Nat.lt_or_ge 0 (outEdges g n).length with hpos | hzero
      · have : ∃ e, e ∈ outEdges g n := List.exists_mem_of_length_pos hpos
        rcases this with ⟨e, he⟩
        have he' := List.mem_filter.1 he
        have hs : e.src = n := by simpa using he'.2
        rw [← hs]
        exact (hInv.2.2 e he'.1).1
      · rcases (fan_out_hit_inv hh).2 with ⟨i, j, hscan, _⟩
        have hlen : (outEdges g n).length = 0 := by omega
        exfalso
        have hts : (sortAsc (fun a b => decide (a < b))
            ((outEdges g n).map fun e => e.timestamp)).length = 0 := by
          rw [(perm_sortAsc _ _).length_eq, List.length_map, hlen]
        rcases List.length_eq_zero.1 hts with hnil
        rw [hnil] at hscan
        have : scanW [] w thr 1 0 0 = none := by
          show (if (0 : ℕ) < ([] : List ℤ).length then _ else none) = none
          rw [if_neg (by simp)]
        rw [List.length_nil] at hscan
        rw [this] at hscan
        cases hscan
  rcases detect_smurfing_ring_cases hr with ⟨n, h, hh, hrr⟩ | ⟨n, h, hh, hrr⟩
  · intro x hx
    rw [hrr] at hx
    have hx' : x ∈ pyUnion h.counterparties n := hx
    rcases mem_pyUnion.1 hx' with hx' | rfl
    · exact fan_in_hit_cparties_sub hInv hh x hx'
    · exact hnodes _ h (Or.inl hh)
  · intro x hx
    rw [hrr] at hx
    have hx' : x ∈ pyUnion h.counterparties n := hx
    rcases mem_pyUnion.1 hx' with hx' | rfl
    · exact fan_out_hit_cparties_sub hInv hh x hx'
    · exact hnodes _ h (Or.inr hh)

theorem detect_smurfing_risk_nonneg {g : DiGraph} {thr : ℕ} {w : ℤ} {r : FraudRing}
    (hr : r ∈ (detect_smurfing g thr w).1) : 0 ≤ r.risk_score := by
  rcases detect_smurfing_ring_cases hr with ⟨n, h, hh, hrr⟩ | ⟨n, h, hh, hrr⟩
  · rw [hrr]
    exact fan_in_hit_score_nonneg hh
  · rw [hrr]
    exact fan_out_hit_score_nonneg hh

/-! Shell-chain state invariants for C2 and C10. -/

theorem headD_mem_of_ne_nil {l : List String} (h : l ≠ []) (d : String) : l.headD d ∈ l := by
  cases l with
  | nil => exact absurd rfl h
  | cons a l => exact List.mem_cons_self a l

theorem getLastD_mem : ∀ (l : List String) (a : String), l.getLastD a ∈ a :: l
  | [], a => List.mem_singleton.2 rfl
  | b :: l, a => by
    rw [List.getLastD_cons]
    rcases List.mem_cons.1 (getLastD_mem l b) with h | h
    · rw [h]
      exact List.mem_cons.2 (Or.inr (List.mem_cons_self b l))
    · exact List.mem_cons.2 (Or.inr (List.mem_cons.2 (Or.inr h)))

theorem getLastD_mem_of_ne_nil {l : List String} (h : l ≠ []) (d : String) :
    l.getLastD d ∈ l := by
  cases l with
  | nil => exact absurd rfl h
  | cons a l =>
    rw [List.getLastD_cons]
    exact getLastD_mem l a

/-- The state invariant threaded through the shell-chain DFS. -/
def ShellStInv (g : DiGraph) (st : ShellState) : Prop :=
  AllNonneg st.scores ∧ (∀ x ∈ keys st.scores, x ∈ g.nodes) ∧
    (∀ r ∈ st.rings, ∀ x ∈ r.members, x ∈ g.nodes)

theorem shellVisit_inv {g : DiGraph} {minH : ℕ} {low : List String} {path : List String}
    {st : ShellState} (hpath : path ≠ [] ∧ ∀ x ∈ path, x ∈ g.nodes)
    (hst : ShellStInv g st) : ShellStInv g (shellVisit minH low path st) := by
  obtain ⟨h1, h2, h3⟩ := hst
  unfold shellVisit
  by_cases hc1 : minH ≤ path.length - 1 ∧ 2 < path.length
  · rw [if_pos hc1]
    by_cases hc2 : (path.drop 1).dropLast ≠ [] ∧ ∀ n ∈ (path.drop 1).dropLast, n ∈ low
    · rw [if_pos hc2]
      by_cases hc3 : path ∈ st.visited
      · rw [if_pos hc3]
        exact ⟨h1, h2, h3⟩
      · rw [if_neg hc3]
        have hinter_sub : ∀ x ∈ (path.drop 1).dropLast, x ∈ g.nodes := by
          intro x hx
          have : x ∈ path.drop 1 := List.Sublist.mem hx (List.dropLast_sublist _)
          exact hpath.2 x (List.Sublist.mem this (List.drop_sublist _ _))
        have hscore : (0 : ℚ) ≤ ((50 + (((path.drop 1).dropLast).length - 1) * 5 : ℕ) : ℚ) :=
          Nat.cast_nonneg _
        refine ⟨?_, ?_, ?_⟩
        · show AllNonneg (addReason (addReason _ _ _ _) _ _ _)
          refine nonneg_addReason (by positivity) (nonneg_addReason (by positivity) ?_)
          refine foldl_preserve_mem AllNonneg _ ((path.drop 1).dropLast) ?_ _ h1
          intro m mid _ hm
          exact nonneg_addReason (by positivity) hm
        · show ∀ x ∈ keys (addReason (addReason _ _ _ _) _ _ _), x ∈ g.nodes
          intro x hx
          rcases keys_addReason.1 hx with hx | rfl
          · rcases keys_addReason.1 hx with hx | rfl
            · have hfold := keys_addReason_foldl ((path.drop 1).dropLast)
                (path.headD "") (hpath.2 _ (headD_mem_of_ne_nil hpath.1 ""))
                hinter_sub
                (((50 + (((path.drop 1).dropLast).length - 1) * 5 : ℕ) : ℚ) * (2 / 5))
                "Low-activity intermediary in shell chain" st.scores h2
              exact hfold x hx
            · exact hpath.2 _ (headD_mem_of_ne_nil hpath.1 "")
          · exact hpath.2 _ (getLastD_mem_of_ne_nil hpath.1 "")
        · intro r hr x hx
          rcases List.mem_append.1 hr with hr | hr
          · exact h3 r hr x hx
          · rw [List.mem_singleton.1 hr] at hx
            have : x ∈ dedupFirst path := hx
            exact hpath.2 x (mem_dedupFirst.1 this)
    · rw [if_neg hc2]
      exact ⟨h1, h2, h3⟩
  · rw [if_neg hc1]
    exact ⟨h1, h2, h3⟩

theorem shellGo_inv (g : DiGraph) (minH maxH : ℕ) (low : List String) (hInv : GraphInv g) :
    ∀ (fuel : ℕ) (stack : List (String × List String)) (st : ShellState),
      (∀ e ∈ stack, e.2 ≠ [] ∧ ∀ x ∈ e.2, x ∈ g.nodes) →
      ShellStInv g st → ShellStInv g (shellGo g minH maxH low fuel stack st)
  | 0, _, _, _, hst => hst
  | _ + 1, [], _, _, hst => hst
  | fuel + 1, (current, path) :: rest, st, hstack, hst => by
    show ShellStInv g (shellGo g minH maxH low (fuel + 1) ((current, path) :: rest) st)
    have hrest : ∀ e ∈ rest, e.2 ≠ [] ∧ ∀ x ∈ e.2, x ∈ g.nodes :=
      fun e he => hstack e (List.mem_cons.2 (Or.inr he))
    have hpath := hstack (current, path) (List.mem_cons_self _ _)
    unfold shellGo
    by_cases hc : maxH < path.length - 1
    · rw [if_pos hc]
      exact shellGo_inv g minH maxH low hInv fuel rest st hrest hst
    · rw [if_neg hc]
      refine shellGo_inv g minH maxH low hInv fuel _ _ ?_
        (shellVisit_inv hpath hst)
      intro e he
      rcases List.mem_append.1 he with he | he
      · have he' := List.mem_reverse.1 he
        rcases List.mem_filterMap.1 he' with ⟨e0, he0, heq⟩
        by_cases hdst : e0.dst ∈ path
        · rw [if_pos hdst] at heq
          cases heq
        · rw [if_neg hdst] at heq
          have heq' := Option.some_inj.1 heq
          rw [← heq']
          constructor
          · simp
          · intro x hx
            rcases List.mem_append.1 hx with hx | hx
            · exact hpath.2 x hx
            · rw [List.mem_singleton.1 hx]
              have he0' : e0 ∈ g.adjl := (List.mem_filter.1 he0).1
              exact (hInv.2.2 e0 he0').2
      · exact hrest e he

theorem detect_shell_chains_inv (g : DiGraph) (minH maxH lowThr : ℕ) (hInv : GraphInv g) :
    ShellStInv g ⟨[],
      (detect_shell_chains g minH maxH lowThr).1,
      (detect_shell_chains g minH maxH lowThr).2⟩ := by
  have hmain : ShellStInv g (g.nodes.foldl
      (fun st s => shellGo g minH maxH
        (g.nodes.filter fun n => inDegree g n + outDegree g n ≤ lowThr)
        (shellFuel g) [(s, [s])] st)
      ⟨[], [], []⟩) := by
    refine foldl_preserve_mem (ShellStInv g) _ g.nodes ?_ _ ?_
    · intro st s hs hst
      refine shellGo_inv g minH maxH _ hInv (shellFuel g) [(s, [s])] st ?_ hst
      intro e he
      rw [List.mem_singleton.1 he]
      refine ⟨by simp, ?_⟩
      intro x hx
      rw [List.mem_singleton.1 hx]
      exact hs
    · refine ⟨?_, ?_, ?_⟩
      · intro a ha; cases ha
      · intro x hx; cases hx
      · intro r hr; cases hr
  obtain ⟨h1, h2, h3⟩ := hmain
  exact ⟨h1, h2, h3⟩

/-! Cycle-ring facts for C2 and C10. -/

theorem cyclesFromAux_sub (g : DiGraph) (s : String) (hInv : GraphInv g) :
    ∀ (fuel : ℕ) (current : String) (path : List String),
      (∀ x ∈ path, x ∈ g.nodes) →
      ∀ c ∈ cyclesFromAux g s fuel current path, ∀ x ∈ c, x ∈ g.nodes
  | 0, _, _, _, c, hc => by cases hc
  | fuel + 1, current, path, hpath, c, hc => by
    unfold cyclesFromAux at hc
    rcases List.mem_flatMap.1 hc with ⟨e, he, hce⟩
    have hdst : e.dst ∈ g.nodes := (hInv.2.2 e (List.mem_filter.1 he).1).2
    by_cases h1 : e.dst == s
    · rw [if_pos h1] at hce
      rw [List.mem_singleton.1 hce]
      exact hpath
    · rw [if_neg h1] at hce
      by_cases h2 : e.dst ∈ path || decide (nodeIdx g e.dst < nodeIdx g s)
      · rw [if_pos h2] at hce
        cases hce
      · rw [if_neg h2] at hce
        refine cyclesFromAux_sub g s hInv fuel e.dst (path ++ [e.dst]) ?_ c hce
        intro x hx
        rcases List.mem_append.1 hx with hx | hx
        · exact hpath x hx
        · rw [List.mem_singleton.1 hx]
          exact hdst

theorem simple_cycles_sub (g : DiGraph) (hInv : GraphInv g) :
    ∀ c ∈ simple_cycles g, ∀ x ∈ c, x ∈ g.nodes := by
  intro c hc
  rcases List.mem_flatMap.1 hc with ⟨s, hs, hcs⟩
  refine cyclesFromAux_sub g s hInv (g.nodes.length + 1) s [s] ?_ c hcs
  intro x hx
  rw [List.mem_singleton.1 hx]
  exact hs

theorem detectCyclesAux_risk_nonneg (minLen maxLen : ℕ) :
    ∀ (cs seen : List (List String)) (r : FraudRing),
      r ∈ detectCyclesAux minLen maxLen cs seen → 0 ≤ r.risk_score
  | [], _, r, hr => by cases hr
  | c :: cs, seen, r, hr => by
    unfold detectCyclesAux at hr
    by_cases hlen : minLen ≤ c.length ∧ c.length ≤ maxLen
    · rw [if_pos hlen] at hr
      by_cases hseen : cycleKey c ∈ seen
      · rw [if_pos hseen] at hr
        exact detectCyclesAux_risk_nonneg minLen maxLen cs seen r hr
      · rw [if_neg hseen] at hr
        rcases List.mem_cons.1 hr with hr | hr
        · rw [hr]
          exact Nat.cast_nonneg _
        · exact detectCyclesAux_risk_nonneg minLen maxLen cs _ r hr
    · rw [if_neg hlen] at hr
      exact detectCyclesAux_risk_nonneg minLen maxLen cs seen r hr

theorem detect_cycles_risk_nonneg (g : DiGraph) (minLen maxLen : ℕ) :
    ∀ r ∈ detect_cycles g minLen maxLen, 0 ≤ r.risk_score :=
  fun r hr => detectCyclesAux_risk_nonneg minLen maxLen (simple_cycles g) [] r hr

theorem detect_cycles_members_sub (g : DiGraph) (minLen maxLen : ℕ) (hInv : GraphInv g) :
    ∀ r ∈ detect_cycles g minLen maxLen, ∀ x ∈ r.members, x ∈ g.nodes := by
  intro r hr
  exact simple_cycles_sub g hInv r.members
    (detectCyclesAux_members_mem minLen maxLen (simple_cycles g) [] r hr)

/-! `assign_ring_ids` keeps members and scores. -/

theorem assign_ring_ids_mem {rings : List FraudRing} {r : FraudRing}
    (hr : r ∈ assign_ring_ids rings) :
    ∃ r0 ∈ rings, r.members = r0.members ∧ r.risk_score = r0.risk_score := by
  unfold assign_ring_ids at hr
  rcases List.mem_map.1 hr with ⟨p, hp, hpr⟩
  have hp2 : p.2 ∈ rings := by
    have hp' : (p.1, p.2) ∈ rings.enum := by rw [Prod.mk.eta]; exact hp
    rw [List.mem_enum_iff_getElem?] at hp'
    exact List.getElem?_mem hp'
  exact ⟨p.2, hp2, by rw [← hpr], by rw [← hpr]⟩

/-! The three evidence folds of `combine_scores`, split into named steps so
they can be reasoned about independently of the normalization tail;
`combine_scores_eq` checks the split is definitional. -/

/-- The centrality pass of `combine_scores`, one `(node, centrality)` pair. -/
def centStep (m : List AccountScore) (p : String × ℚ) : List AccountScore :=
  if 0 < p.2 then
    mapAcc (mapAcc (ensureAcc m p.1) p.1 fun a =>
      { a with risk_score := a.risk_score + p.2 * 20 }) p.1 fun a =>
      { a with reasons := a.reasons ++ ["High degree centrality (" ++ fmt3 p.2 ++ ")"] }
  else
    mapAcc (ensureAcc m p.1) p.1 fun a =>
      { a with risk_score := a.risk_score + p.2 * 20 }

/-- The pattern-evidence pass, one stored `AccountScore`. -/
def patStep (m : List AccountScore) (a : AccountScore) : List AccountScore :=
  mapAcc (ensureAcc m a.account_id) a.account_id fun b =>
    { b with risk_score := b.risk_score + a.risk_score,
             reasons := b.reasons ++ a.reasons }

/-- The ring-membership boost, one member of ring `r`. -/
def ringStep (r : FraudRing) (m : List AccountScore) (mem : String) : List AccountScore :=
  mapAcc (ensureAcc m mem) mem fun b =>
    { b with risk_score := b.risk_score + r.risk_score * (3/10),
             reasons := b.reasons ++ ["Member of " ++ r.pattern_type ++ " ring"] }

/-- The pre-normalization accumulator of `combine_scores`. -/
def combinePre (g : DiGraph) (rings : List FraudRing)
    (patternScores : List (List AccountScore)) : List AccountScore :=
  rings.foldl (fun m r => r.members.foldl (ringStep r) m)
    (patternScores.foldl (fun m ps => ps.foldl patStep m)
      ((if 0 < g.nodes.length then degree_centrality g else []).foldl centStep []))

theorem combine_scores_eq (g : DiGraph) (rings : List FraudRing)
    (ps : List (List AccountScore)) :
    combine_scores g rings ps =
      match combinePre g rings ps with
      | [] => []
      | c :: cs =>
        if (cs.map fun a => a.risk_score).foldl max c.risk_score ≤ 0 then c :: cs
        else
          sortDescAcc ((c :: cs).map fun a =>
            { a with risk_score := round2 (min 100 (a.risk_score /
                ((cs.map fun b => b.risk_score).foldl max c.risk_score) * 100)) }) := rfl

theorem combine_scores_pre_nil (g : DiGraph) (rings : List FraudRing)
    (ps : List (List AccountScore)) (h : combinePre g rings ps = []) :
    combine_scores g rings ps = [] := by
  rw [combine_scores_eq, h]

theorem combine_scores_pre_cons (g : DiGraph) (rings : List FraudRing)
    (ps : List (List AccountScore)) (c : AccountScore) (cs : List AccountScore)
    (h : combinePre g rings ps = c :: cs) :
    combine_scores g rings ps =
      if (cs.map fun a => a.risk_score).foldl max c.risk_score ≤ 0 then c :: cs
      else
        sortDescAcc ((c :: cs).map fun a =>
          { a with risk_score := round2 (min 100 (a.risk_score /
              ((cs.map fun b => b.risk_score).foldl max c.risk_score) * 100)) }) := by
  rw [combine_scores_eq, h]

/-! Nonnegativity through the evidence folds. -/

theorem degree_centrality_nonneg (g : DiGraph) :
    ∀ p ∈ degree_centrality g, 0 ≤ p.2 := by
  intro p hp
  by_cases hlen : g.nodes.length ≤ 1
  · unfold degree_centrality at hp
    rw [if_pos hlen] at hp
    rcases List.mem_map.1 hp with ⟨n, _, hn⟩
    rw [← hn]
    norm_num
  · unfold degree_centrality at hp
    rw [if_neg hlen] at hp
    rcases List.mem_map.1 hp with ⟨n, _, hn⟩
    rw [← hn]
    show 0 ≤ ((inDegree g n + outDegree g n : ℕ) : ℚ) / ((g.nodes.length : ℚ) - 1)
    have h2 : (2 : ℚ) ≤ (g.nodes.length : ℚ) := by
      exact_mod_cast (by omega : 2 ≤ g.nodes.length)
    exact div_nonneg (Nat.cast_nonneg _) (by linarith)

theorem nonneg_centStep {m : List AccountScore} {p : String × ℚ}
    (hp : 0 ≤ p.2) (hm : AllNonneg m) : AllNonneg (centStep m p) := by
  unfold centStep
  have hmid : AllNonneg (mapAcc (ensureAcc m p.1) p.1 fun a =>
      { a with risk_score := a.risk_score + p.2 * 20 }) := by
    refine nonneg_mapAcc ?_ (nonneg_ensureAcc hm)
    intro b hb
    show 0 ≤ b.risk_score + p.2 * 20
    have : 0 ≤ p.2 * 20 := mul_nonneg hp (by norm_num)
    linarith
  split
  · exact nonneg_mapAcc (fun b hb => hb) hmid
  · exact hmid

theorem nonneg_patStep {m : List AccountScore} {a : AccountScore}
    (ha : 0 ≤ a.risk_score) (hm : AllNonneg m) : AllNonneg (patStep m a) := by
  unfold patStep
  refine nonneg_mapAcc ?_ (nonneg_ensureAcc hm)
  intro b hb
  show 0 ≤ b.risk_score + a.risk_score
  linarith

theorem nonneg_ringStep {r : FraudRing} {m : List AccountScore} {mem : String}
    (hr : 0 ≤ r.risk_score) (hm : AllNonneg m) : AllNonneg (ringStep r m mem) := by
  unfold ringStep
  refine nonneg_mapAcc ?_ (nonneg_ensureAcc hm)
  intro b hb
  show 0 ≤ b.risk_score + r.risk_score * (3/10)
  have : 0 ≤ r.risk_score * (3/10) := mul_nonneg hr (by norm_num)
  linarith

theorem combinePre_nonneg (g : DiGraph) (rings : List FraudRing)
    (ps : List (List AccountScore)) (hr : ∀ r ∈ rings, 0 ≤ r.risk_score)
    (hp : ∀ l ∈ ps, AllNonneg l) : AllNonneg (combinePre g rings ps) := by
  unfold combinePre
  refine foldl_preserve_mem AllNonneg _ rings ?_ _
    (foldl_preserve_mem AllNonneg _ ps ?_ _
      (foldl_preserve_mem AllNonneg _ _ ?_ [] ?_))
  · intro m r hrm hm
    refine foldl_preserve_mem AllNonneg _ r.members ?_ _ hm
    intro m2 mem _ hm2
    exact nonneg_ringStep (hr r hrm) hm2
  · intro m l hl hm
    refine foldl_preserve_mem AllNonneg _ l ?_ _ hm
    intro m2 a ha hm2
    exact nonneg_patStep (hp l hl a ha) hm2
  · intro m p hpmem hm
    by_cases hlen : 0 < g.nodes.length
    · rw [if_pos hlen] at hpmem
      exact nonneg_centStep (degree_centrality_nonneg g p hpmem) hm
    · rw [if_neg hlen] at hpmem
      cases hpmem
  · intro a ha
    cases ha

/-! Bounds of the normalization tail. -/

theorem le_foldl_max_init : ∀ (l : List ℚ) (init : ℚ), init ≤ l.foldl max init
  | [], _ => le_refl _
  | a :: l, init => le_trans (le_max_left init a) (le_foldl_max_init l (max init a))

theorem le_foldl_max_mem : ∀ (l : List ℚ) (init x : ℚ), x ∈ l → x ≤ l.foldl max init
  | a :: l, init, x, hx => by
    rw [List.foldl_cons]
    rcases List.mem_cons.1 hx with rfl | hx
    · exact le_trans (le_max_right init x) (le_foldl_max_init l (max init x))
    · exact le_foldl_max_mem l (max init a) x hx

theorem round2_bounds {q : ℚ} (h0 : 0 ≤ q) (h1 : q ≤ 100) :
    0 ≤ round2 q ∧ round2 q ≤ 100 := by
  unfold round2
  rw [floorQ_eq_floor]
  constructor
  · refine div_nonneg ?_ (by norm_num)
    have h : (0 : ℤ) ≤ ⌊q * 100 + 1 / 2⌋ := Int.floor_nonneg.2 (by linarith)
    exact_mod_cast h
  · rw [div_le_iff₀ (by norm_num : (0:ℚ) < 100)]
    have hlt : ⌊q * 100 + 1 / 2⌋ < 10001 := by
      rw [Int.floor_lt]
      push_cast
      linarith
    have hle : ⌊q * 100 + 1 / 2⌋ ≤ 10000 := by omega
    calc ((⌊q * 100 + 1 / 2⌋ : ℤ) : ℚ) ≤ ((10000 : ℤ) : ℚ) := by exact_mod_cast hle
    _ = 100 * 100 := by norm_num

theorem combine_scores_bounds (g : DiGraph) (rings : List FraudRing)
    (ps : List (List AccountScore))
    (hr : ∀ r ∈ rings, 0 ≤ r.risk_score) (hp : ∀ l ∈ ps, AllNonneg l) :
    ∀ a ∈ combine_scores g rings ps, 0 ≤ a.risk_score ∧ a.risk_score ≤ 100 := by
  intro a ha
  have hnn : AllNonneg (combinePre g rings ps) := combinePre_nonneg g rings ps hr hp
  cases hc : combinePre g rings ps with
  | nil =>
    rw [combine_scores_pre_nil g rings ps hc] at ha
    cases ha
  | cons c cs =>
    rw [hc] at hnn
    rw [combine_scores_pre_cons g rings ps c cs hc] at ha
    by_cases hmax : (cs.map fun b => b.risk_score).foldl max c.risk_score ≤ 0
    · rw [if_pos hmax] at ha
      have h0 := hnn a ha
      have hle : a.risk_score ≤ (cs.map fun b => b.risk_score).foldl max c.risk_score := by
        rcases List.mem_cons.1 ha with rfl | ha'
        · exact le_foldl_max_init _ _
        · exact le_foldl_max_mem _ _ _ (List.mem_map.2 ⟨a, ha', rfl⟩)
      exact ⟨h0, by linarith⟩
    · rw [if_neg hmax] at ha
      have hperm : List.Perm (sortDescAcc ((c :: cs).map fun a =>
          { a with risk_score := round2 (min 100 (a.risk_score /
              ((cs.map fun b => b.risk_score).foldl max c.risk_score) * 100)) }))
          ((c :: cs).map fun a =>
          { a with risk_score := round2 (min 100 (a.risk_score /
              ((cs.map fun b => b.risk_score).foldl max c.risk_score) * 100)) }) :=
        perm_sortAsc _ _
      have ha' := hperm.mem_iff.1 ha
      rcases List.mem_map.1 ha' with ⟨b, hb, hba⟩
      have hM : 0 < (cs.map fun b => b.risk_score).foldl max c.risk_score := not_le.1 hmax
      have hb0 := hnn b hb
      have hq0 : 0 ≤ min 100 (b.risk_score /
          ((cs.map fun b => b.risk_score).foldl max c.risk_score) * 100) :=
        le_min (by norm_num) (mul_nonneg (div_nonneg hb0 (le_of_lt hM)) (by norm_num))
      have hq1 : min 100 (b.risk_score /
          ((cs.map fun b => b.risk_score).foldl max c.risk_score) * 100) ≤ 100 :=
        min_le_left _ _
      have hbd := round2_bounds hq0 hq1
      rw [← hba]
      exact hbd

/-- C2: every account emitted by `detect_all_patterns` carries a final
`risk_score` in `[0, 100]`, including the `max_score ≤ 0` branch in which
the accumulated (all-nonnegative, hence all-zero) scores are returned
unchanged. -/
theorem C2_score_range (rows : List Txn) :
    ∀ a ∈ (detect_all_patterns rows).accounts, 0 ≤ a.risk_score ∧ a.risk_score ≤ 100 := by
  rw [accounts_eq]
  refine combine_scores_bounds _ _ _ ?_ ?_
  · intro r hr
    rcases assign_ring_ids_mem hr with ⟨r0, hr0, _, hrisk⟩
    rw [hrisk]
    rcases List.mem_append.1 hr0 with h | h
    · rcases List.mem_append.1 h with h | h
      · exact detect_cycles_risk_nonneg _ 3 5 r0 h
      · exact detect_smurfing_risk_nonneg h
    · rw [(detect_shell_chains_rings_inv (build_graph rows) 3 6 3 r0 h).2.2]
      exact Nat.cast_nonneg _
  · intro l hl
    rcases List.mem_cons.1 hl with rfl | hl
    · exact detect_smurfing_scores_nonneg _ 10 72
    · rw [List.mem_singleton.1 hl]
      exact (detect_shell_chains_inv (build_graph rows) 3 6 3 (graphInv_build rows)).1

set_option maxRecDepth 40000 in
unseal Rat.add Rat.sub Rat.mul Rat.inv in
/-- Witness for C2 at `c1Batch`: account "A" is emitted with score 100,
and the theorem's bounds hold for it. -/
theorem C2_witness :
    (⟨"A", 100, ["High degree centrality (1.000)"]⟩ : AccountScore) ∈
        (detect_all_patterns c1Batch).accounts ∧
      (0 ≤ (⟨"A", 100, ["High degree centrality (1.000)"]⟩ : AccountScore).risk_score ∧
        (⟨"A", 100, ["High degree centrality (1.000)"]⟩ : AccountScore).risk_score ≤ 100) :=
  ⟨by decide, C2_score_range c1Batch _ (by decide)⟩

/-! Key-tracking through the evidence folds, for C10. -/

theorem keys_mapAcc_ensure (m : List AccountScore) (k : String)
    (f : AccountScore → AccountScore) (hf : ∀ b, (f b).account_id = b.account_id)
    (x : String) : x ∈ keys (mapAcc (ensureAcc m k) k f) ↔ x ∈ keys m ∨ x = k := by
  rw [keys_mapAcc hf]
  exact keys_ensureAcc

theorem keys_centStep (m : List AccountScore) (p : String × ℚ) (x : String) :
    x ∈ keys (centStep m p) ↔ x ∈ keys m ∨ x = p.1 := by
  unfold centStep
  split
  · have hf2 : ∀ b : AccountScore,
        ((fun a : AccountScore =>
          { a with reasons :=
              a.reasons ++ ["High degree centrality (" ++ fmt3 p.2 ++ ")"] }) b).account_id
          = b.account_id := fun b => rfl
    rw [keys_mapAcc hf2]
    exact keys_mapAcc_ensure m p.1
      (fun a => { a with risk_score := a.risk_score + p.2 * 20 }) (fun b => rfl) x
  · exact keys_mapAcc_ensure m p.1
      (fun a => { a with risk_score := a.risk_score + p.2 * 20 }) (fun b => rfl) x

theorem keys_patStep (m : List AccountScore) (a : AccountScore) (x : String) :
    x ∈ keys (patStep m a) ↔ x ∈ keys m ∨ x = a.account_id :=
  keys_mapAcc_ensure m a.account_id
    (fun b => { b with risk_score := b.risk_score + a.risk_score,
                       reasons := b.reasons ++ a.reasons }) (fun _ => rfl) x

theorem keys_ringStep (r : FraudRing) (m : List AccountScore) (mem : String) (x : String) :
    x ∈ keys (ringStep r m mem) ↔ x ∈ keys m ∨ x = mem :=
  keys_mapAcc_ensure m mem
    (fun b => { b with risk_score := b.risk_score + r.risk_score * (3/10),
                       reasons := b.reasons ++ ["Member of " ++ r.pattern_type ++ " ring"] })
    (fun _ => rfl) x

theorem keys_foldl_bunion {β : Type} (step : List AccountScore → β → List AccountScore)
    (ks : β → List String)
    (hstep : ∀ m b x, x ∈ keys (step m b) ↔ x ∈ keys m ∨ x ∈ ks b) :
    ∀ (l : List β) (m : List AccountScore) (x : String),
      x ∈ keys (l.foldl step m) ↔ x ∈ keys m ∨ ∃ b ∈ l, x ∈ ks b
  | [], m, x => by simp
  | b :: l, m, x => by
    rw [List.foldl_cons, keys_foldl_bunion step ks hstep l (step m b) x, hstep m b x]
    constructor
    · rintro ((h | h) | ⟨b', hb', hx⟩)
      · exact Or.inl h
      · exact Or.inr ⟨b, List.mem_cons_self b l, h⟩
      · exact Or.inr ⟨b', List.mem_cons.2 (Or.inr hb'), hx⟩
    · rintro (h | ⟨b', hb', hx⟩)
      · exact Or.inl (Or.inl h)
      · rcases List.mem_cons.1 hb' with rfl | hb'
        · exact Or.inl (Or.inr hx)
        · exact Or.inr ⟨b', hb', hx⟩

theorem keys_ring_fold (r : FraudRing) (m : List AccountScore) (x : String) :
    x ∈ keys (r.members.foldl (ringStep r) m) ↔ x ∈ keys m ∨ x ∈ r.members := by
  rw [keys_foldl_bunion (ringStep r) (fun mem => [mem])
    (fun m b x => by rw [keys_ringStep]; simp) r.members m x]
  simp

theorem keys_pat_fold (l : List AccountScore) (m : List AccountScore) (x : String) :
    x ∈ keys (l.foldl patStep m) ↔ x ∈ keys m ∨ x ∈ keys l := by
  rw [keys_foldl_bunion patStep (fun a => [a.account_id])
    (fun m b x => by rw [keys_patStep]; simp) l m x]
  simp [keys, eq_comm]

theorem keys_cent_fold (dc : List (String × ℚ)) (m : List AccountScore) (x : String) :
    x ∈ keys (dc.foldl centStep m) ↔ x ∈ keys m ∨ ∃ p ∈ dc, x = p.1 := by
  rw [keys_foldl_bunion centStep (fun p => [p.1])
    (fun m b x => by rw [keys_centStep]; simp) dc m x]
  simp

theorem degree_centrality_fst (g : DiGraph) :
    (degree_centrality g).map (fun p => p.1) = g.nodes := by
  unfold degree_centrality
  split <;> simp [Function.comp_def]

theorem combinePre_keys (g : DiGraph) (rings : List FraudRing)
    (ps : List (List AccountScore)) (x : String) :
    x ∈ keys (combinePre g rings ps) ↔
      (0 < g.nodes.length ∧ x ∈ g.nodes) ∨ (∃ l ∈ ps, x ∈ keys l) ∨
        ∃ r ∈ rings, x ∈ r.members := by
  unfold combinePre
  rw [keys_foldl_bunion (fun m r => r.members.foldl (ringStep r) m) (fun r => r.members)
    (fun m r x => keys_ring_fold r m x) rings _ x]
  rw [keys_foldl_bunion (fun m ps => ps.foldl patStep m) keys
    (fun m l x => keys_pat_fold l m x) ps _ x]
  rw [keys_cent_fold _ [] x]
  constructor
  · rintro (((h | ⟨p, hp, rfl⟩) | ⟨l, hl, hx⟩) | ⟨r, hr, hx⟩)
    · exact absurd h (by simp [keys])
    · by_cases hlen : 0 < g.nodes.length
      · rw [if_pos hlen] at hp
        refine Or.inl ⟨hlen, ?_⟩
        rw [← degree_centrality_fst g]
        exact List.mem_map.2 ⟨p, hp, rfl⟩
      · rw [if_neg hlen] at hp
        cases hp
    · exact Or.inr (Or.inl ⟨l, hl, hx⟩)
    · exact Or.inr (Or.inr ⟨r, hr, hx⟩)
  · rintro (⟨hlen, hx⟩ | ⟨l, hl, hx⟩ | ⟨r, hr, hx⟩)
    · refine Or.inl (Or.inl (Or.inr ?_))
      rw [← degree_centrality_fst g] at hx
      rcases List.mem_map.1 hx with ⟨p, hp, hpx⟩
      exact ⟨p, by rw [if_pos hlen]; exact hp, hpx.symm⟩
    · exact Or.inl (Or.inr ⟨l, hl, hx⟩)
    · exact Or.inr ⟨r, hr, hx⟩

theorem combine_scores_keys (g : DiGraph) (rings : List FraudRing)
    (ps : List (List AccountScore))
    (hr : ∀ r ∈ rings, ∀ m ∈ r.members, m ∈ g.nodes)
    (hp : ∀ l ∈ ps, ∀ k ∈ keys l, k ∈ g.nodes)
    (hne : g.nodes ≠ []) :
    ∀ x, x ∈ keys (combine_scores g rings ps) ↔ x ∈ g.nodes := by
  intro x
  have hlen : 0 < g.nodes.length := List.length_pos.2 hne
  have hpre : ∀ y, y ∈ keys (combinePre g rings ps) ↔ y ∈ g.nodes := by
    intro y
    rw [combinePre_keys]
    constructor
    · rintro (⟨_, hy⟩ | ⟨l, hl, hy⟩ | ⟨r, hrr, hy⟩)
      · exact hy
      · exact hp l hl y hy
      · exact hr r hrr y hy
    · intro hy
      exact Or.inl ⟨hlen, hy⟩
  cases hc : combinePre g rings ps with
  | nil =>
    exfalso
    rcases List.exists_mem_of_ne_nil _ hne with ⟨n, hn⟩
    have := (hpre n).2 hn
    rw [hc] at this
    simp [keys] at this
  | cons c cs =>
    have hkeys_pre : ∀ y, y ∈ keys (c :: cs) ↔ y ∈ g.nodes := by
      intro y
      rw [← hc]
      exact hpre y
    rw [combine_scores_pre_cons g rings ps c cs hc]
    by_cases hmax : (cs.map fun b => b.risk_score).foldl max c.risk_score ≤ 0
    · rw [if_pos hmax]
      exact hkeys_pre x
    · rw [if_neg hmax]
      rw [← hkeys_pre x]
      have hperm : List.Perm (sortDescAcc ((c :: cs).map fun a =>
          { a with risk_score := round2 (min 100 (a.risk_score /
              ((cs.map fun b => b.risk_score).foldl max c.risk_score) * 100)) }))
          ((c :: cs).map fun a =>
          { a with risk_score := round2 (min 100 (a.risk_score /
              ((cs.map fun b => b.risk_score).foldl max c.risk_score) * 100)) }) :=
        perm_sortAsc _ _
      unfold keys
      constructor
      · intro hx
        rcases List.mem_map.1 hx with ⟨b, hb, hbx⟩
        have hb' := hperm.mem_iff.1 hb
        rcases List.mem_map.1 hb' with ⟨b0, hb0, hb0b⟩
        refine List.mem_map.2 ⟨b0, hb0, ?_⟩
        rw [← hbx, ← hb0b]
      · intro hx
        rcases List.mem_map.1 hx with ⟨b0, hb0, hbx⟩
        exact List.mem_map.2 ⟨_, hperm.mem_iff.2 (List.mem_map.2 ⟨b0, hb0, rfl⟩), hbx⟩

/-! Node population of `build_graph`, for C10. -/

theorem nodes_addEdge (g : DiGraph) (e : Edge) :
    (addEdge g e).nodes = (addNode (addNode g e.src) e.dst).nodes := by
  by_cases h : hasEdge (addNode (addNode g e.src) e.dst) e.src e.dst = true <;>
    simp [addEdge, h]

theorem mem_nodes_buildStep {g : DiGraph} {t : Txn} {x : String} :
    x ∈ (buildStep g t).nodes ↔ x ∈ g.nodes ∨ x = t.sender_id ∨ x = t.receiver_id := by
  unfold buildStep
  rw [show (addEdge (addNode (addNode g t.sender_id) t.receiver_id) (txEdge t)).nodes =
    (addNode (addNode (addNode (addNode g t.sender_id) t.receiver_id) t.sender_id)
      t.receiver_id).nodes from nodes_addEdge _ _]
  rw [show x ∈ (addNode (addNode (addNode (addNode g t.sender_id) t.receiver_id) t.sender_id)
      t.receiver_id).nodes ↔ _ from mem_nodes_addNode]
  rw [show x ∈ (addNode (addNode (addNode g t.sender_id) t.receiver_id) t.sender_id).nodes ↔ _
    from mem_nodes_addNode]
  rw [show x ∈ (addNode (addNode g t.sender_id) t.receiver_id).nodes ↔ _ from mem_nodes_addNode]
  rw [show x ∈ (addNode g t.sender_id).nodes ↔ _ from mem_nodes_addNode]
  tauto

theorem build_nodes_ne_nil {rows : List Txn} (h : rows ≠ []) :
    (build_graph rows).nodes ≠ [] := by
  rcases List.eq_nil_or_concat rows with rfl | ⟨rs, t, hrt⟩
  · exact absurd rfl h
  · rw [hrt, List.concat_eq_append]
    intro hnil
    have hmem : t.receiver_id ∈ (build_graph (rs ++ [t])).nodes := by
      rw [build_graph_append]
      exact mem_nodes_buildStep.2 (Or.inr (Or.inr rfl))
    rw [hnil] at hmem
    cases hmem

/-- C10: for a non-empty batch, the account ids emitted by
`detect_all_patterns` are exactly the node ids of the transaction graph —
the centrality pass seeds an entry per node, and every pattern-evidence key
and ring member is a graph node. -/
theorem C10_account_ids (rows : List Txn) (hrows : rows ≠ []) (x : String) :
    (x ∈ (detect_all_patterns rows).accounts.map fun a => a.account_id) ↔
      x ∈ (build_graph rows).nodes := by
  have hInv := graphInv_build rows
  have h1 : (detect_all_patterns rows).accounts.map (fun a => a.account_id) =
      keys (detect_all_patterns rows).accounts := rfl
  rw [h1, accounts_eq]
  refine combine_scores_keys _ _ _ ?_ ?_ (build_nodes_ne_nil hrows) x
  · intro r hr m hm
    rcases assign_ring_ids_mem hr with ⟨r0, hr0, hmem, _⟩
    rw [hmem] at hm
    rcases List.mem_append.1 hr0 with h | h
    · rcases List.mem_append.1 h with h | h
      · exact detect_cycles_members_sub _ 3 5 hInv r0 h m hm
      · exact detect_smurfing_members_sub _ 10 72 hInv h m hm
    · exact (detect_shell_chains_inv _ 3 6 3 hInv).2.2 r0 h m hm
  · intro l hl k hk
    rcases List.mem_cons.1 hl with rfl | hl
    · exact detect_smurfing_keys_sub _ 10 72 hInv k hk
    · rw [List.mem_singleton.1 hl] at hk
      exact (detect_shell_chains_inv _ 3 6 3 hInv).2.1 k hk

/-- Witness for C10 at `c1Batch` and account id "A". -/
theorem C10_witness :
    c1Batch ≠ [] ∧
      (("A" ∈ (detect_all_patterns c1Batch).accounts.map fun a => a.account_id) ↔
        "A" ∈ (build_graph c1Batch).nodes) :=
  ⟨by decide, C10_account_ids c1Batch (by decide) "A"⟩
